import Mathlib

/-!
Verification of the trilogy-save-editor binary codec core
(`src/save_data.rs`): the bounds-checked `SaveCursor`, the scalar,
string, enum and container deserializers of the `SaveData` trait, and a
spec-modelled encoder for the round-trip contract.

Machine integers are modelled as `Nat`/`Int` with explicit wrapping
(`% 2^32`, `% 2^64`) exactly where Rust release-mode arithmetic wraps.
Byte buffers are `List Nat` (a `Vec<u8>`; theorems that need it carry the
hypothesis that every entry is `< 256`).  Fallible Rust functions taking
`&mut SaveCursor` become state-passing functions
`SaveCursor → Except Err α × SaveCursor`: the returned cursor is the
state of the `&mut` borrow after the call, on failure included.
-/

namespace TrilogySave

/-- The error kinds of the codec (`anyhow` messages in the source):
`unexpected end of file`, `string encoding error`,
`invalid enum representation`. -/
inductive Err where
  | unexpectedEndOfFile
  | stringEncodingError
  | invalidEnumValue
deriving DecidableEq

/-- `SaveCursor { position: usize, bytes: Vec<u8> }`. -/
structure SaveCursor where
  position : Nat
  bytes : List Nat
deriving DecidableEq

/-- `SaveCursor::new(bytes)`: position starts at `0`. -/
def SaveCursor.new (bytes : List Nat) : SaveCursor :=
  ⟨0, bytes⟩

/-- `SaveCursor::read(&mut self, num_bytes)`: bounds check
`self.bytes.len() < end`, then the slice `bytes[position..end]` and
`position = end`; on failure the cursor is untouched. -/
def SaveCursor.read (c : SaveCursor) (numBytes : Nat) :
    Except Err (List Nat) × SaveCursor :=
  let e := c.position + numBytes
  if c.bytes.length < e then
    (.error .unexpectedEndOfFile, c)
  else
    (.ok ((c.bytes.drop c.position).take numBytes), { c with position := e })

/-- Little-endian value of a byte list (`bincode` fixint decoding of the
slice returned by `read`). -/
def leToNat : List Nat → Nat
  | [] => 0
  | b :: bs => b + 256 * leToNat bs

/-- Reinterpret a `u32` bit pattern as Rust `i32` (two's complement). -/
def toInt32 (u : Nat) : Int :=
  if u < 2 ^ 31 then (u : Int) else (u : Int) - 2 ^ 32

/-- Reinterpret a `u8` bit pattern as Rust `i8` (two's complement). -/
def toInt8 (u : Nat) : Int :=
  if u < 2 ^ 7 then (u : Int) else (u : Int) - 2 ^ 8

/-- `SaveData::deserialize_from::<u8>`: read `size_of::<u8>() = 1` byte,
`bincode` fixint decode. -/
def deserialize_from_u8 (c : SaveCursor) : Except Err Nat × SaveCursor :=
  match c.read 1 with
  | (.ok bs, c1) => (.ok (leToNat bs), c1)
  | (.error e, c1) => (.error e, c1)

/-- `SaveData::deserialize_from::<u32>`: read 4 bytes, little-endian. -/
def deserialize_from_u32 (c : SaveCursor) : Except Err Nat × SaveCursor :=
  match c.read 4 with
  | (.ok bs, c1) => (.ok (leToNat bs), c1)
  | (.error e, c1) => (.error e, c1)

/-- `SaveData::deserialize_from::<i32>`: read 4 bytes, little-endian,
two's complement. -/
def deserialize_from_i32 (c : SaveCursor) : Except Err Int × SaveCursor :=
  match c.read 4 with
  | (.ok bs, c1) => (.ok (toInt32 (leToNat bs)), c1)
  | (.error e, c1) => (.error e, c1)

/-- `SaveData::deserialize_from::<i8>`: read 1 byte, two's complement. -/
def deserialize_from_i8 (c : SaveCursor) : Except Err Int × SaveCursor :=
  match c.read 1 with
  | (.ok bs, c1) => (.ok (toInt8 (leToNat bs)), c1)
  | (.error e, c1) => (.error e, c1)

/-- `SaveData::deserialize_from::<f32>`: read 4 bytes; the value is kept
as its little-endian bit pattern (`f32::from_le_bytes` preserves bits,
and nothing in the codec computes with the float). -/
def deserialize_from_f32bits (c : SaveCursor) : Except Err Nat × SaveCursor :=
  match c.read 4 with
  | (.ok bs, c1) => (.ok (leToNat bs), c1)
  | (.error e, c1) => (.error e, c1)

/-- `SaveData::deserialize_from_bool`: a 4-byte signed integer tested
non-zero. -/
def deserialize_from_bool (c : SaveCursor) : Except Err Bool × SaveCursor :=
  match deserialize_from_i32 c with
  | (.ok v, c1) => (.ok (decide (v ≠ 0)), c1)
  | (.error e, c1) => (.error e, c1)

/-- Wrap an integer to Rust `i32` two's complement (release-mode
wrapping arithmetic). -/
def wrap32 (x : Int) : Int :=
  toInt32 ((x % (2 ^ 32 : Int)).toNat)

/-- Rust `i32::abs` under release-mode wrapping (`i32::MIN.abs()` wraps
back to `i32::MIN`). -/
def i32Abs (v : Int) : Int :=
  wrap32 (if v < 0 then -v else v)

/-- Rust `as usize` cast of an `i32` on a 64-bit target: sign-extend,
then reinterpret. -/
def i32AsUsize (v : Int) : Nat :=
  (v % (2 ^ 64 : Int)).toNat

/-- The byte count of the Unicode branch: `(len.abs() * 2) as usize`
with release-mode wrapping at each `i32` step. -/
def negStrLen (len : Int) : Nat :=
  i32AsUsize (wrap32 (i32Abs len * 2))

/-- The encodings `Encoding::decode` can select: the one asked for, or
the one a byte-order mark dictates. -/
inductive Enc where
  | utf8
  | utf16le
  | utf16be
  | windows1252
deriving DecidableEq

/-- The WHATWG windows-1252 decoder index, as implemented by
`encoding_rs::WINDOWS_1252`: every byte maps to a code point — bytes
`0x81, 0x8D, 0x8F, 0x90, 0x9D` map to the C1 controls of the same
value, the rest of `0x80..=0x9F` to the punctuation/letter block below,
and all other bytes to themselves. -/
def w1252 (b : Nat) : Nat :=
  if b = 0x80 then 0x20AC
  else if b = 0x82 then 0x201A
  else if b = 0x83 then 0x192
  else if b = 0x84 then 0x201E
  else if b = 0x85 then 0x2026
  else if b = 0x86 then 0x2020
  else if b = 0x87 then 0x2021
  else if b = 0x88 then 0x2C6
  else if b = 0x89 then 0x2030
  else if b = 0x8A then 0x160
  else if b = 0x8B then 0x2039
  else if b = 0x8C then 0x152
  else if b = 0x8E then 0x17D
  else if b = 0x91 then 0x2018
  else if b = 0x92 then 0x2019
  else if b = 0x93 then 0x201C
  else if b = 0x94 then 0x201D
  else if b = 0x95 then 0x2022
  else if b = 0x96 then 0x2013
  else if b = 0x97 then 0x2014
  else if b = 0x98 then 0x2DC
  else if b = 0x99 then 0x2122
  else if b = 0x9A then 0x161
  else if b = 0x9B then 0x203A
  else if b = 0x9C then 0x153
  else if b = 0x9E then 0x17E
  else if b = 0x9F then 0x178
  else b

/-- Pair a byte stream into little-endian 16-bit code units; the flag
records a lone trailing byte (a malformed sequence). -/
def leUnits : List Nat → List Nat × Bool
  | [] => ([], false)
  | [_] => ([], true)
  | b0 :: b1 :: rest =>
    let r := leUnits rest
    ((b0 + 256 * b1) :: r.1, r.2)

/-- Pair a byte stream into big-endian 16-bit code units. -/
def beUnits : List Nat → List Nat × Bool
  | [] => ([], false)
  | [_] => ([], true)
  | b0 :: b1 :: rest =>
    let r := beUnits rest
    ((256 * b0 + b1) :: r.1, r.2)

/-- WHATWG UTF-16 code-unit processing (surrogate pairing) with
U+FFFD replacement; the first argument is a pending lead surrogate.
In error cases only the `true` flag is observable through the codec
(the caller bails before using the text), and the flag follows the
WHATWG decoder exactly; the error-free output is exact as well. -/
def utf16Scalars : Option Nat → List Nat → List Nat × Bool
  | none, [] => ([], false)
  | some _, [] => ([0xFFFD], true)
  | none, u :: rest =>
    if 0xD800 ≤ u ∧ u < 0xDC00 then
      utf16Scalars (some u) rest
    else if 0xDC00 ≤ u ∧ u < 0xE000 then
      let r := utf16Scalars none rest
      (0xFFFD :: r.1, true)
    else
      let r := utf16Scalars none rest
      (u :: r.1, r.2)
  | some lead, u :: rest =>
    if 0xDC00 ≤ u ∧ u < 0xE000 then
      let r := utf16Scalars none rest
      ((0x10000 + (lead - 0xD800) * 0x400 + (u - 0xDC00)) :: r.1, r.2)
    else if 0xD800 ≤ u ∧ u < 0xDC00 then
      let r := utf16Scalars (some u) rest
      (0xFFFD :: r.1, true)
    else
      let r := utf16Scalars none rest
      (0xFFFD :: u :: r.1, true)

/-- UTF-16 decode of a byte stream (little- or big-endian), WHATWG
semantics: pair into units, process surrogates, flag a lone trailing
byte as malformed. -/
def utf16Decode (le : Bool) (bs : List Nat) : List Nat × Bool :=
  let u := if le then leUnits bs else beUnits bs
  let r := utf16Scalars none u.1
  (if u.2 then r.1 ++ [0xFFFD] else r.1, r.2 || u.2)

/-- WHATWG UTF-8 decode with U+FFFD replacement: the strict validity
ranges (shortest form, no surrogates, max U+10FFFF); on a malformed
sequence the flag is set — resynchronisation detail only affects
replacement-character placement, which the codec never observes. -/
def utf8Scalars : List Nat → List Nat × Bool
  | [] => ([], false)
  | b :: rest =>
    if b < 0x80 then
      let r := utf8Scalars rest
      (b :: r.1, r.2)
    else if 0xC2 ≤ b ∧ b ≤ 0xDF then
      match rest with
      | [] => ([0xFFFD], true)
      | b1 :: rest1 =>
        if 0x80 ≤ b1 ∧ b1 ≤ 0xBF then
          let r := utf8Scalars rest1
          (((b - 0xC0) * 0x40 + (b1 - 0x80)) :: r.1, r.2)
        else
          let r := utf8Scalars (b1 :: rest1)
          (0xFFFD :: r.1, true)
    else if 0xE0 ≤ b ∧ b ≤ 0xEF then
      match rest with
      | [] => ([0xFFFD], true)
      | b1 :: rest1 =>
        if (if b = 0xE0 then 0xA0 ≤ b1 ∧ b1 ≤ 0xBF
            else if b = 0xED then 0x80 ≤ b1 ∧ b1 ≤ 0x9F
            else 0x80 ≤ b1 ∧ b1 ≤ 0xBF) then
          match rest1 with
          | [] => ([0xFFFD], true)
          | b2 :: rest2 =>
            if 0x80 ≤ b2 ∧ b2 ≤ 0xBF then
              let r := utf8Scalars rest2
              (((b - 0xE0) * 0x1000 + (b1 - 0x80) * 0x40 + (b2 - 0x80)) :: r.1,
               r.2)
            else
              let r := utf8Scalars (b2 :: rest2)
              (0xFFFD :: r.1, true)
        else
          let r := utf8Scalars (b1 :: rest1)
          (0xFFFD :: r.1, true)
    else if 0xF0 ≤ b ∧ b ≤ 0xF4 then
      match rest with
      | [] => ([0xFFFD], true)
      | b1 :: rest1 =>
        if (if b = 0xF0 then 0x90 ≤ b1 ∧ b1 ≤ 0xBF
            else if b = 0xF4 then 0x80 ≤ b1 ∧ b1 ≤ 0x8F
            else 0x80 ≤ b1 ∧ b1 ≤ 0xBF) then
          match rest1 with
          | [] => ([0xFFFD], true)
          | b2 :: rest2 =>
            if 0x80 ≤ b2 ∧ b2 ≤ 0xBF then
              match rest2 with
              | [] => ([0xFFFD], true)
              | b3 :: rest3 =>
                if 0x80 ≤ b3 ∧ b3 ≤ 0xBF then
                  let r := utf8Scalars rest3
                  (((b - 0xF0) * 0x40000 + (b1 - 0x80) * 0x1000 +
                      (b2 - 0x80) * 0x40 + (b3 - 0x80)) :: r.1, r.2)
                else
                  let r := utf8Scalars (b3 :: rest3)
                  (0xFFFD :: r.1, true)
            else
              let r := utf8Scalars (b2 :: rest2)
              (0xFFFD :: r.1, true)
        else
          let r := utf8Scalars (b1 :: rest1)
          (0xFFFD :: r.1, true)
    else
      let r := utf8Scalars rest
      (0xFFFD :: r.1, true)

/-- `Encoding::decode_without_bom_handling` for the encodings the codec
reaches. The windows-1252 decoder is total: no byte is malformed. -/
def decodeWithoutBom : Enc → List Nat → List Nat × Bool
  | .utf8, bs => utf8Scalars bs
  | .utf16le, bs => utf16Decode true bs
  | .utf16be, bs => utf16Decode false bs
  | .windows1252, bs => (bs.map w1252, false)

/-- `Encoding::for_bom`: a UTF-8, UTF-16LE or UTF-16BE byte-order mark
at the head of the input selects that encoding and its length. -/
def forBom : List Nat → Option (Enc × Nat)
  | 0xEF :: 0xBB :: 0xBF :: _ => some (.utf8, 3)
  | 0xFF :: 0xFE :: _ => some (.utf16le, 2)
  | 0xFE :: 0xFF :: _ => some (.utf16be, 2)
  | _ => none

/-- `Encoding::decode` of `encoding_rs` (the function the codec calls as
`UTF_16LE.decode` / `WINDOWS_1252.decode`): BOM sniffing first — a BOM
overrides the asked-for encoding and is stripped — then whole-input
decode with replacement; the flag reports whether any malformed
sequence occurred. -/
def encDecode (enc : Enc) (bs : List Nat) : List Nat × Bool :=
  match forBom bs with
  | some (e2, bomLen) => decodeWithoutBom e2 (bs.drop bomLen)
  | none => decodeWithoutBom enc bs

/-- `SaveData::deserialize_from_string`: a 4-byte signed length prefix;
`0` → empty string; negative → read `(len.abs() * 2) as usize` bytes and
decode with `UTF_16LE.decode`, bailing with the string-encoding error if
it reports malformed sequences; positive → read `len as usize` bytes and
decode with `WINDOWS_1252.decode` under the same error policy.  The
decoded text is modelled as its list of Unicode scalar values. -/
def deserialize_from_string (c : SaveCursor) : Except Err (List Nat) × SaveCursor :=
  match deserialize_from_i32 c with
  | (.error e, c1) => (.error e, c1)
  | (.ok len, c1) =>
    if len = 0 then (.ok [], c1)
    else if len < 0 then
      match c1.read (negStrLen len) with
      | (.error e, c2) => (.error e, c2)
      | (.ok bs, c2) =>
        let r := encDecode .utf16le bs
        if r.2 then (.error .stringEncodingError, c2) else (.ok r.1, c2)
    else
      match c1.read len.toNat with
      | (.error e, c2) => (.error e, c2)
      | (.ok bs, c2) =>
        let r := encDecode .windows1252 bs
        if r.2 then (.error .stringEncodingError, c2) else (.ok r.1, c2)

/-- `SaveData::deserialize_enum_from_u8::<E>`: one byte through
`E::from_u8`; `None` (no variant with that discriminant) is the
invalid-enum error — no default, no clamping. -/
def deserialize_enum_from_u8 {E : Type} (fromU8 : Nat → Option E)
    (c : SaveCursor) : Except Err E × SaveCursor :=
  match deserialize_from_u8 c with
  | (.ok v, c1) =>
    match fromU8 v with
    | some x => (.ok x, c1)
    | none => (.error .invalidEnumValue, c1)
  | (.error e, c1) => (.error e, c1)

/-- `SaveData::deserialize_enum_from_u32::<E>`: four bytes through
`E::from_u32` under the same error policy. -/
def deserialize_enum_from_u32 {E : Type} (fromU32 : Nat → Option E)
    (c : SaveCursor) : Except Err E × SaveCursor :=
  match deserialize_from_u32 c with
  | (.ok v, c1) =>
    match fromU32 v with
    | some x => (.ok x, c1)
    | none => (.error .invalidEnumValue, c1)
  | (.error e, c1) => (.error e, c1)

/-- A sample 8-bit enum with variants `{0, 1, 2}`, as in the spec's
invalid-enum test. -/
inductive SampleEnum where
  | zero
  | one
  | two
deriving DecidableEq

/-- `FromPrimitive::from_u8` for `SampleEnum`. -/
def SampleEnum.fromU8 : Nat → Option SampleEnum
  | 0 => some .zero
  | 1 => some .one
  | 2 => some .two
  | _ => none

/-- The `for _ in 0..len { vec.push(D::deserialize(input)?) }` loop:
`n` sequential element decodes, results in source order, the first
failure aborting with the element's error and cursor state. -/
def readElems {α : Type} (de : SaveCursor → Except Err α × SaveCursor) :
    Nat → SaveCursor → Except Err (List α) × SaveCursor
  | 0, c => (.ok [], c)
  | n + 1, c =>
    match de c with
    | (.error e, c1) => (.error e, c1)
    | (.ok x, c1) =>
      match readElems de n c1 with
      | (.error e, c2) => (.error e, c2)
      | (.ok xs, c2) => (.ok (x :: xs), c2)

/-- `SaveData::deserialize_from_array::<D>`: a 4-byte unsigned length
prefix, early return on `0`, then the element loop. -/
def deserialize_from_array {α : Type}
    (de : SaveCursor → Except Err α × SaveCursor) (c : SaveCursor) :
    Except Err (List α) × SaveCursor :=
  match deserialize_from_u32 c with
  | (.error e, c1) => (.error e, c1)
  | (.ok len, c1) =>
    if len = 0 then (.ok [], c1)
    else readElems de len c1

/-- `IndexMap::insert` semantics on the insertion-ordered pair list: an
equivalent key keeps its place (and its key object) and gets the new
value; a fresh key is appended. -/
def indexInsert {κ ν : Type} (beq : κ → κ → Bool) (m : List (κ × ν))
    (k : κ) (v : ν) : List (κ × ν) :=
  if m.any fun p => beq p.1 k then
    m.map fun p => if beq p.1 k then (p.1, v) else p
  else
    m ++ [(k, v)]

/-- The `for _ in 0..len { map.insert(K::deserialize(input)?,
V::deserialize(input)?) }` loop: key decoded before value, pairs
inserted in stream order into the accumulator. -/
def readPairs {κ ν : Type} (deK : SaveCursor → Except Err κ × SaveCursor)
    (deV : SaveCursor → Except Err ν × SaveCursor) (beq : κ → κ → Bool) :
    Nat → List (κ × ν) → SaveCursor →
      Except Err (List (κ × ν)) × SaveCursor
  | 0, m, c => (.ok m, c)
  | n + 1, m, c =>
    match deK c with
    | (.error e, c1) => (.error e, c1)
    | (.ok k, c1) =>
      match deV c1 with
      | (.error e, c2) => (.error e, c2)
      | (.ok v, c2) => readPairs deK deV beq n (indexInsert beq m k v) c2

/-- `SaveData::deserialize_from_indexmap::<K, V>`: a 4-byte unsigned
count, early return on `0`, then the pair loop starting from the empty
map. -/
def deserialize_from_indexmap {κ ν : Type}
    (deK : SaveCursor → Except Err κ × SaveCursor)
    (deV : SaveCursor → Except Err ν × SaveCursor) (beq : κ → κ → Bool)
    (c : SaveCursor) : Except Err (List (κ × ν)) × SaveCursor :=
  match deserialize_from_u32 c with
  | (.error e, c1) => (.error e, c1)
  | (.ok len, c1) =>
    if len = 0 then (.ok [], c1)
    else readPairs deK deV beq len [] c1

/-- `impl SaveData for [u8; LENGTH]`: `LENGTH` individual single-byte
`deserialize_from` calls in sequence, writing the array in order. -/
def deserialize_byte_array (LENGTH : Nat) (c : SaveCursor) :
    Except Err (List Nat) × SaveCursor :=
  readElems deserialize_from_u8 LENGTH c

/-- The closed set of schema primitives of the codec (the `SaveData`
implementations under `src/save_data.rs`); per-game record schemas are
compositions of these. -/
inductive Desc where
  | u8D
  | i8D
  | i32D
  | u32D
  | f32D
  | boolD
  | fixedD (n : Nat)
  | arrD (d : Desc)
  | mapD (kd vd : Desc)
  | strD
deriving DecidableEq

/-- Decoded values: one constructor per primitive.  An `f32` is kept as
its little-endian bit pattern (the codec never computes with floats);
strings are their Unicode scalar values; maps are insertion-ordered
pair lists. -/
inductive Value where
  | vU8 (n : Nat)
  | vI8 (v : Int)
  | vI32 (v : Int)
  | vU32 (n : Nat)
  | vF32 (bits : Nat)
  | vBool (b : Bool)
  | vBytes (bs : List Nat)
  | vArr (vs : List Value)
  | vMap (es : List (Value × Value))
  | vStr (cs : List Nat)

mutual

/-- Rust `==` (`Eq`) on decoded values, used by `IndexMap::insert` for
key lookup. -/
def Value.beq : Value → Value → Bool
  | .vU8 a, .vU8 b => a == b
  | .vI8 a, .vI8 b => a == b
  | .vI32 a, .vI32 b => a == b
  | .vU32 a, .vU32 b => a == b
  | .vF32 a, .vF32 b => a == b
  | .vBool a, .vBool b => a == b
  | .vBytes a, .vBytes b => a == b
  | .vArr a, .vArr b => Value.beqList a b
  | .vMap a, .vMap b => Value.beqPairs a b
  | .vStr a, .vStr b => a == b
  | _, _ => false

/-- Elementwise `Value.beq` on lists. -/
def Value.beqList : List Value → List Value → Bool
  | [], [] => true
  | a :: as, b :: bs => Value.beq a b && Value.beqList as bs
  | _, _ => false

/-- Elementwise `Value.beq` on pair lists. -/
def Value.beqPairs : List (Value × Value) → List (Value × Value) → Bool
  | [], [] => true
  | (k1, v1) :: as, (k2, v2) :: bs =>
    Value.beq k1 k2 && Value.beq v1 v2 && Value.beqPairs as bs
  | _, _ => false

end

/-- Lift a typed deserializer result into the `Value` universe. -/
def mapOk (f : α → Value) : Except Err α × SaveCursor →
    Except Err Value × SaveCursor
  | (.ok x, c) => (.ok (f x), c)
  | (.error e, c) => (.error e, c)

/-- The capability-dispatch decode (`SaveData::deserialize`) for every
primitive: each case delegates to the corresponding trait method, with
containers recursing through the element type's own decode. -/
def decode : Desc → SaveCursor → Except Err Value × SaveCursor
  | .u8D => fun c => mapOk .vU8 (deserialize_from_u8 c)
  | .i8D => fun c => mapOk .vI8 (deserialize_from_i8 c)
  | .i32D => fun c => mapOk .vI32 (deserialize_from_i32 c)
  | .u32D => fun c => mapOk .vU32 (deserialize_from_u32 c)
  | .f32D => fun c => mapOk .vF32 (deserialize_from_f32bits c)
  | .boolD => fun c => mapOk .vBool (deserialize_from_bool c)
  | .fixedD n => fun c => mapOk .vBytes (deserialize_byte_array n c)
  | .arrD d => fun c => mapOk .vArr (deserialize_from_array (decode d) c)
  | .mapD kd vd => fun c =>
    mapOk .vMap (deserialize_from_indexmap (decode kd) (decode vd) Value.beq c)
  | .strD => fun c => mapOk .vStr (deserialize_from_string c)

/-- `natToLe w n`: the `w` little-endian bytes of `n` (mod `256^w`). -/
def natToLe : Nat → Nat → List Nat
  | 0, _ => []
  | w + 1, n => n % 256 :: natToLe w (n / 256)

/-- The windows-1252 encoder index: the byte for a code point, when the
code point is in the decoder's image. -/
def w1252Enc (ch : Nat) : Option Nat :=
  (List.range 256).find? fun b => w1252 b = ch

/-- UTF-16 code units of a scalar-value sequence (surrogate pairs for
the supplementary planes). -/
def utf16Units (cs : List Nat) : List Nat :=
  cs.flatMap fun ch =>
    if ch < 0x10000 then [ch]
    else [0xD800 + (ch - 0x10000) / 0x400, 0xDC00 + (ch - 0x10000) % 0x400]

/-- Little-endian byte serialization of 16-bit code units. -/
def unitsToLeBytes (us : List Nat) : List Nat :=
  us.flatMap fun u => [u % 256, u / 256]

/-- Modelled from the spec: the string encoder, which is not part of
`src/save_data.rs` (only decode is).  Per spec §4.3/§9 the encoder
writes the branch the value implies — empty → prefix `0`; text wholly
in the windows-1252 code page → positive prefix and code-page bytes
(the spec's suggested narrower-encoding policy for its open question);
otherwise → negative prefix (minus the UTF-16 code-unit count, as a
wrapped `i32`) and UTF-16LE bytes. -/
def encodeString (cs : List Nat) : List Nat :=
  if cs = [] then natToLe 4 0
  else if cs.all fun ch => (w1252Enc ch).isSome then
    natToLe 4 cs.length ++ cs.map fun ch => (w1252Enc ch).getD 0
  else
    natToLe 4 (((-(utf16Units cs).length : Int) % (2 ^ 32 : Int)).toNat) ++
      unitsToLeBytes (utf16Units cs)

/-- Concatenating elementwise encodings of a list of values. -/
def encodeListWith (f : Value → Option (List Nat)) :
    List Value → Option (List Nat)
  | [] => some []
  | v :: vs =>
    match f v, encodeListWith f vs with
    | some b, some bs => some (b ++ bs)
    | _, _ => none

/-- Concatenating elementwise encodings of a pair list, key before
value. -/
def encodePairsWith (fK fV : Value → Option (List Nat)) :
    List (Value × Value) → Option (List Nat)
  | [] => some []
  | (k, v) :: es =>
    match fK k, fV v, encodePairsWith fK fV es with
    | some bk, some bv, some bs => some (bk ++ bv ++ bs)
    | _, _, _ => none

/-- Modelled from the spec: the encoder (spec §4.6 — `encode(self) ->
bytes`, symmetric to decode, field order preserved), absent from
`src/save_data.rs`.  Scalars are written fixed-width little-endian;
booleans as a 4-byte `0`/`1` (spec §4.2); containers as a 4-byte count
followed by the elements in iteration order (spec §4.5); `none` on a
value/shape mismatch. -/
def encode : Desc → Value → Option (List Nat)
  | .u8D => fun v =>
    match v with
    | .vU8 n => some (natToLe 1 n)
    | _ => none
  | .i8D => fun v =>
    match v with
    | .vI8 x => some (natToLe 1 ((x % (2 ^ 8 : Int)).toNat))
    | _ => none
  | .i32D => fun v =>
    match v with
    | .vI32 x => some (natToLe 4 ((x % (2 ^ 32 : Int)).toNat))
    | _ => none
  | .u32D => fun v =>
    match v with
    | .vU32 n => some (natToLe 4 n)
    | _ => none
  | .f32D => fun v =>
    match v with
    | .vF32 b => some (natToLe 4 b)
    | _ => none
  | .boolD => fun v =>
    match v with
    | .vBool b => some (natToLe 4 (if b then 1 else 0))
    | _ => none
  | .fixedD n => fun v =>
    match v with
    | .vBytes bs => if bs.length = n then some (bs.map (· % 256)) else none
    | _ => none
  | .arrD d => fun v =>
    match v with
    | .vArr vs =>
      match encodeListWith (encode d) vs with
      | some body => some (natToLe 4 vs.length ++ body)
      | none => none
    | _ => none
  | .mapD kd vd => fun v =>
    match v with
    | .vMap es =>
      match encodePairsWith (encode kd) (encode vd) es with
      | some body => some (natToLe 4 es.length ++ body)
      | none => none
    | _ => none
  | .strD => fun v =>
    match v with
    | .vStr cs => some (encodeString cs)
    | _ => none

/-- The element loop of the canonicality checker. -/
def canonElems (f : SaveCursor → Option (Value × SaveCursor)) :
    Nat → SaveCursor → Option (List Value × SaveCursor)
  | 0, c => some ([], c)
  | n + 1, c =>
    match f c with
    | none => none
    | some (x, c1) =>
      match canonElems f n c1 with
      | none => none
      | some (xs, c2) => some (x :: xs, c2)

/-- The pair loop of the canonicality checker: fails on a duplicate
key, otherwise appends in stream order. -/
def canonPairs (fK fV : SaveCursor → Option (Value × SaveCursor)) :
    Nat → List (Value × Value) → SaveCursor →
      Option (List (Value × Value) × SaveCursor)
  | 0, m, c => some (m, c)
  | n + 1, m, c =>
    match fK c with
    | none => none
    | some (k, c1) =>
      match fV c1 with
      | none => none
      | some (v, c2) =>
        if m.any fun p => Value.beq p.1 k then none
        else canonPairs fK fV n (m ++ [(k, v)]) c2

/-- The canonicality checker: decodes exactly as `decode` does but
additionally demands the forms whose information decode discards —
a boolean word must be `0` or `1` (any other non-zero word decodes to
`true` but re-encodes as `1`), map keys must be duplicate-free (a
duplicate overwrites in place, shrinking the map), and strings are
rejected outright (their encoder is not part of the examined core and
its branch policy is the spec's open question §9). -/
def canon : Desc → SaveCursor → Option (Value × SaveCursor)
  | .u8D => fun c =>
    match deserialize_from_u8 c with
    | (.ok n, c1) => some (.vU8 n, c1)
    | (.error _, _) => none
  | .i8D => fun c =>
    match deserialize_from_i8 c with
    | (.ok x, c1) => some (.vI8 x, c1)
    | (.error _, _) => none
  | .i32D => fun c =>
    match deserialize_from_i32 c with
    | (.ok x, c1) => some (.vI32 x, c1)
    | (.error _, _) => none
  | .u32D => fun c =>
    match deserialize_from_u32 c with
    | (.ok n, c1) => some (.vU32 n, c1)
    | (.error _, _) => none
  | .f32D => fun c =>
    match deserialize_from_f32bits c with
    | (.ok b, c1) => some (.vF32 b, c1)
    | (.error _, _) => none
  | .boolD => fun c =>
    match deserialize_from_i32 c with
    | (.ok x, c1) =>
      if x = 0 ∨ x = 1 then some (.vBool (decide (x ≠ 0)), c1) else none
    | (.error _, _) => none
  | .fixedD n => fun c =>
    match deserialize_byte_array n c with
    | (.ok bs, c1) => some (.vBytes bs, c1)
    | (.error _, _) => none
  | .arrD d => fun c =>
    match deserialize_from_u32 c with
    | (.ok len, c1) =>
      if len = 0 then some (.vArr [], c1)
      else
        match canonElems (canon d) len c1 with
        | some (vs, c2) => some (.vArr vs, c2)
        | none => none
    | (.error _, _) => none
  | .mapD kd vd => fun c =>
    match deserialize_from_u32 c with
    | (.ok len, c1) =>
      if len = 0 then some (.vMap [], c1)
      else
        match canonPairs (canon kd) (canon vd) len [] c1 with
        | some (es, c2) => some (.vMap es, c2)
        | none => none
    | (.error _, _) => none
  | .strD => fun _ => none

/-- The bytes a decode step consumed: the slice of `B` from `p` to
`q`. -/
def slicePB (B : List Nat) (p q : Nat) : List Nat :=
  (B.drop p).take (q - p)

end TrilogySave

deriving instance DecidableEq for Except

namespace TrilogySave

/-- `read` in the success regime, as an equation. -/
theorem read_ok (c : SaveCursor) (n : Nat)
    (h : c.position + n ≤ c.bytes.length) :
    c.read n = (.ok ((c.bytes.drop c.position).take n),
                ⟨c.position + n, c.bytes⟩) := by
  unfold SaveCursor.read
  simp [Nat.not_lt.mpr h]

/-- `read` in the failure regime, as an equation. -/
theorem read_err (c : SaveCursor) (n : Nat)
    (h : c.bytes.length < c.position + n) :
    c.read n = (.error .unexpectedEndOfFile, c) := by
  unfold SaveCursor.read
  simp [h]

/-- Inversion: a successful `read` pins down bound, output and cursor. -/
theorem read_ok_inv (c : SaveCursor) (n : Nat) (out : List Nat)
    (c1 : SaveCursor) (h : c.read n = (.ok out, c1)) :
    c.position + n ≤ c.bytes.length ∧
    out = (c.bytes.drop c.position).take n ∧
    c1 = ⟨c.position + n, c.bytes⟩ := by
  by_cases hb : c.bytes.length < c.position + n
  · rw [read_err c n hb] at h
    simp at h
  · rw [read_ok c n (Nat.not_lt.mp hb)] at h
    obtain ⟨h1, h2⟩ := Prod.mk.injEq .. ▸ h
    exact ⟨Nat.not_lt.mp hb, (Except.ok.injEq .. ▸ h1).symm, h2.symm⟩

/-- C3: for every cursor and every `n`, when fewer than `n` bytes remain
(`position + n > len(bytes)`), `read n` fails with
`UnexpectedEndOfFile` and the cursor — its `position` included — is
returned unchanged. -/
theorem claim_C3_read_eof_no_advance (c : SaveCursor) (n : Nat)
    (h : c.bytes.length < c.position + n) :
    c.read n = (.error .unexpectedEndOfFile, c) := by
  unfold SaveCursor.read
  simp [h]

/-- C3 witness: a cursor at position 0 over 2 bytes, read of 3. -/
theorem claim_C3_read_eof_no_advance_witness :
    (SaveCursor.mk 0 [1, 2]).bytes.length < (SaveCursor.mk 0 [1, 2]).position + 3 ∧
    (SaveCursor.mk 0 [1, 2]).read 3 =
      (.error .unexpectedEndOfFile, SaveCursor.mk 0 [1, 2]) :=
  ⟨by decide, claim_C3_read_eof_no_advance (SaveCursor.mk 0 [1, 2]) 3 (by decide)⟩

/-- C4: the cursor invariant `0 ≤ position ≤ len(bytes)` (the lower
bound is inherent in `position : Nat`): a fresh cursor starts at `0`, so
satisfies it; every successful `read n` advances `position` by exactly
`n` and returns exactly the `n` bytes at the old position, re-establishing
the invariant; every failed `read` returns the cursor unchanged. -/
theorem claim_C4_cursor_invariant :
    (∀ bs : List Nat, (SaveCursor.new bs).position = 0 ∧
      (SaveCursor.new bs).position ≤ (SaveCursor.new bs).bytes.length) ∧
    (∀ (c : SaveCursor) (n : Nat) (out : List Nat) (c1 : SaveCursor),
      c.position ≤ c.bytes.length → c.read n = (.ok out, c1) →
      c1.bytes = c.bytes ∧ c1.position = c.position + n ∧
      out = (c.bytes.drop c.position).take n ∧ out.length = n ∧
      c1.position ≤ c1.bytes.length) ∧
    (∀ (c : SaveCursor) (n : Nat) (e : Err) (c1 : SaveCursor),
      c.read n = (.error e, c1) → c1 = c) := by
  refine ⟨fun bs => ⟨rfl, Nat.zero_le _⟩, ?_, ?_⟩
  · intro c n out c1 _ h
    obtain ⟨hb, hout, hc1⟩ := read_ok_inv c n out c1 h
    subst hout hc1
    refine ⟨rfl, rfl, rfl, ?_, hb⟩
    rw [List.length_take, List.length_drop]
    omega
  · intro c n e c1 h
    by_cases hb : c.bytes.length < c.position + n
    · rw [read_err c n hb] at h
      cases h; rfl
    · rw [read_ok c n (Nat.not_lt.mp hb)] at h
      cases h

/-- C4 witness: instantiating the success branch at position 1 over 3
bytes with a read of 2. -/
theorem claim_C4_cursor_invariant_witness :
    ((SaveCursor.mk 1 [5, 6, 7]).position ≤ (SaveCursor.mk 1 [5, 6, 7]).bytes.length ∧
     (SaveCursor.mk 1 [5, 6, 7]).read 2 = (.ok [6, 7], SaveCursor.mk 3 [5, 6, 7])) ∧
    ((SaveCursor.mk 3 [5, 6, 7]).bytes = (SaveCursor.mk 1 [5, 6, 7]).bytes ∧
     (SaveCursor.mk 3 [5, 6, 7]).position = (SaveCursor.mk 1 [5, 6, 7]).position + 2 ∧
     [6, 7] = ((SaveCursor.mk 1 [5, 6, 7]).bytes.drop 1).take 2 ∧
     ([6, 7] : List Nat).length = 2 ∧
     (SaveCursor.mk 3 [5, 6, 7]).position ≤ (SaveCursor.mk 3 [5, 6, 7]).bytes.length) :=
  ⟨⟨by decide, by rfl⟩,
   claim_C4_cursor_invariant.2.1 (SaveCursor.mk 1 [5, 6, 7]) 2 [6, 7]
     (SaveCursor.mk 3 [5, 6, 7]) (by decide) (by rfl)⟩

/-- A successful 4-byte signed read, as an equation. -/
theorem deserialize_from_i32_ok (c : SaveCursor)
    (h : c.position + 4 ≤ c.bytes.length) :
    deserialize_from_i32 c =
      (.ok (toInt32 (leToNat ((c.bytes.drop c.position).take 4))),
       ⟨c.position + 4, c.bytes⟩) := by
  unfold deserialize_from_i32
  rw [read_ok c 4 h]

/-- C2: string decode reads a 4-byte signed little-endian prefix and
branches on it.  Prefix bytes `[0,0,0,0]` (value `0`): the empty string,
zero further bytes consumed.  Prefix bytes `[FD,FF,FF,FF]` (value `-3`):
exactly `abs(-3) * 2 = 6` further bytes consumed and handed to the
UTF-16LE decoder (`UTF_16LE.decode`), the string-encoding error raised
exactly when it reports malformed input.  Prefix bytes `[5,0,0,0]`
(value `5`): exactly `5` further bytes consumed and handed to the
Windows-1252 decoder (`WINDOWS_1252.decode`). -/
theorem claim_C2_string_branches :
    (toInt32 (leToNat [0xFD, 0xFF, 0xFF, 0xFF]) = -3 ∧ negStrLen (-3) = 6 ∧
     toInt32 (leToNat [5, 0, 0, 0]) = 5) ∧
    (∀ c : SaveCursor, c.position + 4 ≤ c.bytes.length →
      (c.bytes.drop c.position).take 4 = [0, 0, 0, 0] →
      deserialize_from_string c = (.ok [], ⟨c.position + 4, c.bytes⟩)) ∧
    (∀ c : SaveCursor, c.position + 10 ≤ c.bytes.length →
      (c.bytes.drop c.position).take 4 = [0xFD, 0xFF, 0xFF, 0xFF] →
      deserialize_from_string c =
        (if (encDecode .utf16le ((c.bytes.drop (c.position + 4)).take 6)).2 then
           .error .stringEncodingError
         else .ok (encDecode .utf16le ((c.bytes.drop (c.position + 4)).take 6)).1,
         ⟨c.position + 10, c.bytes⟩)) ∧
    (∀ c : SaveCursor, c.position + 9 ≤ c.bytes.length →
      (c.bytes.drop c.position).take 4 = [5, 0, 0, 0] →
      deserialize_from_string c =
        (if (encDecode .windows1252 ((c.bytes.drop (c.position + 4)).take 5)).2 then
           .error .stringEncodingError
         else .ok (encDecode .windows1252 ((c.bytes.drop (c.position + 4)).take 5)).1,
         ⟨c.position + 9, c.bytes⟩)) := by
  refine ⟨⟨by decide, by decide, by decide⟩, ?_, ?_, ?_⟩
  · intro c h hpre
    unfold deserialize_from_string
    rw [deserialize_from_i32_ok c (by omega), hpre]
    norm_num [show toInt32 (leToNat [0, 0, 0, 0]) = 0 from by decide]
  · intro c h hpre
    unfold deserialize_from_string
    rw [deserialize_from_i32_ok c (by omega), hpre]
    rw [show toInt32 (leToNat [0xFD, 0xFF, 0xFF, 0xFF]) = -3 from by decide]
    have h10 : c.position + 4 + 6 = c.position + 10 := by omega
    simp only [show ((-3 : Int) = 0) = False from by decide,
      show ((-3 : Int) < 0) = True from by decide,
      show negStrLen (-3) = 6 from by decide, if_true, if_false,
      iff_true, iff_false]
    rw [read_ok ⟨c.position + 4, c.bytes⟩ 6 (by simpa using by omega)]
    simp only [h10]
    split <;> rfl
  · intro c h hpre
    unfold deserialize_from_string
    rw [deserialize_from_i32_ok c (by omega), hpre]
    rw [show toInt32 (leToNat [5, 0, 0, 0]) = 5 from by decide]
    have h9 : c.position + 4 + 5 = c.position + 9 := by omega
    simp only [show ((5 : Int) = 0) = False from by decide,
      show ((5 : Int) < 0) = False from by decide,
      show ((5 : Int).toNat) = 5 from by decide, if_true, if_false,
      iff_true, iff_false]
    rw [read_ok ⟨c.position + 4, c.bytes⟩ 5 (by simpa using by omega)]
    simp only [h9]
    split <;> rfl

/-- C2 witness: the three branches on concrete buffers — empty,
`-3` followed by UTF-16LE `ABC`, `5` followed by ASCII `Hello`. -/
theorem claim_C2_string_branches_witness :
    deserialize_from_string (SaveCursor.new [0, 0, 0, 0]) =
      (.ok [], ⟨4, [0, 0, 0, 0]⟩) ∧
    deserialize_from_string
        (SaveCursor.new [0xFD, 0xFF, 0xFF, 0xFF, 0x41, 0, 0x42, 0, 0x43, 0]) =
      (.ok [0x41, 0x42, 0x43],
       ⟨10, [0xFD, 0xFF, 0xFF, 0xFF, 0x41, 0, 0x42, 0, 0x43, 0]⟩) ∧
    deserialize_from_string
        (SaveCursor.new [5, 0, 0, 0, 0x48, 0x65, 0x6C, 0x6C, 0x6F]) =
      (.ok [0x48, 0x65, 0x6C, 0x6C, 0x6F],
       ⟨9, [5, 0, 0, 0, 0x48, 0x65, 0x6C, 0x6C, 0x6F]⟩) := by
  refine ⟨?_, ?_, ?_⟩
  · rw [claim_C2_string_branches.2.1 (SaveCursor.new [0, 0, 0, 0])
      (by decide) (by rfl)]
    rfl
  · rw [claim_C2_string_branches.2.2.1
      (SaveCursor.new [0xFD, 0xFF, 0xFF, 0xFF, 0x41, 0, 0x42, 0, 0x43, 0])
      (by decide) (by rfl)]
    decide
  · rw [claim_C2_string_branches.2.2.2
      (SaveCursor.new [5, 0, 0, 0, 0x48, 0x65, 0x6C, 0x6C, 0x6F])
      (by decide) (by rfl)]
    decide

/-- C6 counterexample: the bytes `0x81, 0x8D, 0x8F, 0x90, 0x9D` are
exactly those with no assigned character in the classic Windows-1252
code page, yet a positive-prefix string made of them decodes
successfully (to the C1 controls of the same values, per the WHATWG
index the `encoding_rs` decoder implements) — not to
`StringEncodingError` as the claim requires. -/
theorem claim_C6_counterexample :
    deserialize_from_string
        (SaveCursor.new [5, 0, 0, 0, 0x81, 0x8D, 0x8F, 0x90, 0x9D]) =
      (.ok [0x81, 0x8D, 0x8F, 0x90, 0x9D],
       ⟨9, [5, 0, 0, 0, 0x81, 0x8D, 0x8F, 0x90, 0x9D]⟩) ∧
    (deserialize_from_string
        (SaveCursor.new [5, 0, 0, 0, 0x81, 0x8D, 0x8F, 0x90, 0x9D])).1 ≠
      .error .stringEncodingError := by
  decide

/-- C6 amended: the WHATWG Windows-1252 decoder the code calls assigns a
code point to every byte (the five classic unmapped bytes decode to C1
controls), so the positive-length branch never fails because of an
unmapped byte; whenever enough bytes remain and the consumed bytes do
not begin with a UTF-8/UTF-16 byte-order mark (which `Encoding::decode`
would re-route to another decoder), the branch succeeds and returns the
Windows-1252 decoding of exactly `length` bytes. -/
theorem claim_C6_amended_w1252_total (c : SaveCursor) (L : Int)
    (hL : L = toInt32 (leToNat ((c.bytes.drop c.position).take 4)))
    (hpos : 0 < L)
    (hlen : c.position + 4 + L.toNat ≤ c.bytes.length)
    (hbom : forBom ((c.bytes.drop (c.position + 4)).take L.toNat) = none) :
    deserialize_from_string c =
      (.ok (((c.bytes.drop (c.position + 4)).take L.toNat).map w1252),
       ⟨c.position + 4 + L.toNat, c.bytes⟩) := by
  unfold deserialize_from_string
  rw [deserialize_from_i32_ok c (by omega), ← hL]
  have hne : ¬(L = 0) := by omega
  have hnlt : ¬(L < 0) := by omega
  simp only [hne, hnlt, if_false]
  rw [read_ok ⟨c.position + 4, c.bytes⟩ L.toNat (by simpa using hlen)]
  simp only [encDecode, hbom, decodeWithoutBom]
  rfl

/-- C6 amended witness: prefix `2` followed by `0x41 0x81` decodes to
`[U+0041, U+0081]`. -/
theorem claim_C6_amended_w1252_total_witness :
    ((2 : Int) = toInt32 (leToNat (((SaveCursor.new [2, 0, 0, 0, 0x41, 0x81]).bytes.drop
        (SaveCursor.new [2, 0, 0, 0, 0x41, 0x81]).position).take 4)) ∧
     (0 : Int) < 2 ∧
     forBom ((([2, 0, 0, 0, 0x41, 0x81] : List Nat).drop 4).take 2) = none) ∧
    deserialize_from_string (SaveCursor.new [2, 0, 0, 0, 0x41, 0x81]) =
      (.ok [0x41, 0x81], ⟨6, [2, 0, 0, 0, 0x41, 0x81]⟩) := by
  refine ⟨⟨by decide, by decide, by decide⟩, ?_⟩
  rw [claim_C6_amended_w1252_total (SaveCursor.new [2, 0, 0, 0, 0x41, 0x81]) 2
    (by decide) (by decide) (by decide) (by decide)]
  decide

/-- C10 counterexample to the uniqueness part: the prefix `-1` (bytes
`FF FF FF FF`) followed by `FF FE` — a UTF-16LE byte-order mark, which
`Encoding::decode` strips — also yields the empty string, so `-2^31` is
not the only negative length prefix that yields an empty string. -/
theorem claim_C10_counterexample :
    deserialize_from_string (SaveCursor.new [0xFF, 0xFF, 0xFF, 0xFF, 0xFF, 0xFE]) =
      (.ok [], ⟨6, [0xFF, 0xFF, 0xFF, 0xFF, 0xFF, 0xFE]⟩) ∧
    toInt32 (leToNat [0xFF, 0xFF, 0xFF, 0xFF]) = -1 ∧
    (-1 : Int) ≠ -(2 ^ 31) := by
  decide

/-- C10 amended: for the prefix `-2^31`, wrapping `abs` returns `-2^31`
and the wrapping doubling gives `0`, so the UTF-16 branch consumes zero
text bytes and succeeds with the empty string, consuming 4 bytes total;
`-2^31` is the only negative prefix consuming zero text bytes (every
other negative prefix consumes at least 2 — though a prefix such as
`-1` followed by a stripped byte-order mark can also return an empty
string). -/
theorem claim_C10_min_i32_wrap :
    (i32Abs (-(2 ^ 31)) = -(2 ^ 31) ∧ negStrLen (-(2 ^ 31)) = 0) ∧
    (∀ c : SaveCursor, c.position + 4 ≤ c.bytes.length →
      (c.bytes.drop c.position).take 4 = [0, 0, 0, 0x80] →
      deserialize_from_string c = (.ok [], ⟨c.position + 4, c.bytes⟩)) ∧
    (∀ L : Int, -(2 ^ 31) ≤ L → L < 0 → L ≠ -(2 ^ 31) → 2 ≤ negStrLen L) := by
  refine ⟨⟨by decide, by decide⟩, ?_, ?_⟩
  · intro c h hpre
    unfold deserialize_from_string
    rw [deserialize_from_i32_ok c (by omega), hpre]
    rw [show toInt32 (leToNat [0, 0, 0, 0x80]) = -(2 ^ 31) from by decide]
    have hne : ((-(2 ^ 31) : Int) = 0) = False := by decide
    have hlt : ((-(2 ^ 31) : Int) < 0) = True := by decide
    simp only [hne, hlt, if_true, if_false, iff_true, iff_false,
      show negStrLen (-(2 ^ 31)) = 0 from by decide]
    rw [read_ok ⟨c.position + 4, c.bytes⟩ 0 (by simpa using by omega)]
    simp [encDecode, forBom, decodeWithoutBom, utf16Decode, leUnits, utf16Scalars]
  · intro L h1 h2 h3
    simp only [negStrLen, i32AsUsize, wrap32, i32Abs, toInt32]
    norm_num
    split_ifs <;> omega

/-- A successful 4-byte unsigned read, as an equation. -/
theorem deserialize_from_u32_ok (c : SaveCursor)
    (h : c.position + 4 ≤ c.bytes.length) :
    deserialize_from_u32 c =
      (.ok (leToNat ((c.bytes.drop c.position).take 4)),
       ⟨c.position + 4, c.bytes⟩) := by
  unfold deserialize_from_u32
  rw [read_ok c 4 h]

/-- A successful single-byte read, as an equation. -/
theorem deserialize_from_u8_ok (c : SaveCursor)
    (h : c.position + 1 ≤ c.bytes.length) :
    deserialize_from_u8 c =
      (.ok (leToNat ((c.bytes.drop c.position).take 1)),
       ⟨c.position + 1, c.bytes⟩) := by
  unfold deserialize_from_u8
  rw [read_ok c 1 h]

/-- Inversion of a successful 4-byte unsigned read. -/
theorem deserialize_from_u32_ok_inv (c : SaveCursor) (len : Nat)
    (c1 : SaveCursor) (h : deserialize_from_u32 c = (.ok len, c1)) :
    len = leToNat ((c.bytes.drop c.position).take 4) ∧
    c1 = ⟨c.position + 4, c.bytes⟩ ∧ c.position + 4 ≤ c.bytes.length := by
  unfold deserialize_from_u32 at h
  split at h
  case h_1 bs c2 heq =>
    obtain ⟨hb, hout, hc⟩ := read_ok_inv c 4 bs c2 heq
    simp only [Prod.mk.injEq, Except.ok.injEq] at h
    exact ⟨h.1.symm.trans (congrArg leToNat hout), h.2.symm.trans hc, hb⟩
  case h_2 e c2 heq =>
    simp at h

/-- The element loop returns exactly as many elements as requested. -/
theorem readElems_length {α : Type}
    (de : SaveCursor → Except Err α × SaveCursor) :
    ∀ (n : Nat) (c : SaveCursor) (l : List α) (c2 : SaveCursor),
      readElems de n c = (.ok l, c2) → l.length = n := by
  intro n
  induction n with
  | zero =>
    intro c l c2 h
    unfold readElems at h
    simp only [Prod.mk.injEq, Except.ok.injEq] at h
    simp [← h.1]
  | succ n ih =>
    intro c l c2 h
    unfold readElems at h
    split at h
    case h_1 => simp at h
    case h_2 x c1 heq =>
      split at h
      case h_1 => simp at h
      case h_2 xs c3 heq2 =>
        simp only [Prod.mk.injEq, Except.ok.injEq] at h
        rw [← h.1]
        simp [ih c1 xs c3 heq2]

/-- Stepping the element loop past a successful element decode. -/
theorem readElems_succ_ok {α : Type}
    (de : SaveCursor → Except Err α × SaveCursor) (n : Nat) (c : SaveCursor)
    (x : α) (c1 : SaveCursor) (h : de c = (.ok x, c1)) :
    readElems de (n + 1) c =
      match readElems de n c1 with
      | (.error e, c2) => (.error e, c2)
      | (.ok xs, c2) => (.ok (x :: xs), c2) := by
  conv_lhs => rw [readElems]
  rw [h]

/-- Stepping the element loop into a failing element decode. -/
theorem readElems_succ_err {α : Type}
    (de : SaveCursor → Except Err α × SaveCursor) (n : Nat) (c : SaveCursor)
    (e : Err) (c1 : SaveCursor) (h : de c = (.error e, c1)) :
    readElems de (n + 1) c = (.error e, c1) := by
  conv_lhs => rw [readElems]
  rw [h]

/-- The per-byte fixed-array loop in its success regime: it returns the
same slice and final position a bulk read would. -/
theorem byteLoop_ok :
    ∀ (n : Nat) (c : SaveCursor), c.position + n ≤ c.bytes.length →
      readElems deserialize_from_u8 n c =
        (.ok ((c.bytes.drop c.position).take n), ⟨c.position + n, c.bytes⟩) := by
  intro n
  induction n with
  | zero =>
    intro c _
    unfold readElems
    simp
  | succ n ih =>
    intro c h
    have hp : c.position < c.bytes.length := by omega
    rw [readElems_succ_ok deserialize_from_u8 n c _ _
      (deserialize_from_u8_ok c (by omega))]
    rw [ih ⟨c.position + 1, c.bytes⟩ (by simpa using by omega)]
    have e1 : leToNat (List.take 1 (List.drop c.position c.bytes)) =
        c.bytes[c.position] := by
      rw [List.drop_eq_getElem_cons hp]
      simp [leToNat]
    have e2 : List.take (n + 1) (List.drop c.position c.bytes) =
        c.bytes[c.position] :: List.take n (List.drop (c.position + 1) c.bytes) := by
      rw [List.drop_eq_getElem_cons hp, List.take_succ_cons]
    have e3 : c.position + 1 + n = c.position + (n + 1) := by omega
    rw [e1, e2, e3]

/-- The per-byte fixed-array loop in its failure regime: it consumes
every remaining byte one at a time, then fails, leaving the cursor at
the end of the buffer. -/
theorem byteLoop_err :
    ∀ (n : Nat) (c : SaveCursor), c.position ≤ c.bytes.length →
      c.bytes.length < c.position + n →
      readElems deserialize_from_u8 n c =
        (.error .unexpectedEndOfFile, ⟨c.bytes.length, c.bytes⟩) := by
  intro n
  induction n with
  | zero => intro c h1 h2; omega
  | succ n ih =>
    intro c h1 h2
    by_cases hp : c.position < c.bytes.length
    · rw [readElems_succ_ok deserialize_from_u8 n c _ _
        (deserialize_from_u8_ok c (by omega))]
      rw [ih ⟨c.position + 1, c.bytes⟩ (by simpa using by omega)
        (by simpa using by omega)]
    · have hpos : c.position = c.bytes.length := by omega
      have hu8 : deserialize_from_u8 c = (.error .unexpectedEndOfFile, c) := by
        unfold deserialize_from_u8
        rw [read_err c 1 (by omega)]
      rw [readElems_succ_err deserialize_from_u8 n c _ _ hu8]
      rw [show (⟨c.bytes.length, c.bytes⟩ : SaveCursor) = c from by rw [← hpos]]

/-- C7: enum decode from an 8-bit or 32-bit source integer is exact:
whenever `from_u8`/`from_u32` has no variant for the read integer the
result is the invalid-enum error (never a default or clamped variant),
and whenever a variant exists the result is exactly that variant. -/
theorem claim_C7_enum_no_default :
    (∀ (E : Type) (fromU8 : Nat → Option E) (c : SaveCursor),
      c.position + 1 ≤ c.bytes.length →
      fromU8 (leToNat ((c.bytes.drop c.position).take 1)) = none →
      deserialize_enum_from_u8 fromU8 c =
        (.error .invalidEnumValue, ⟨c.position + 1, c.bytes⟩)) ∧
    (∀ (E : Type) (fromU8 : Nat → Option E) (c : SaveCursor) (x : E),
      c.position + 1 ≤ c.bytes.length →
      fromU8 (leToNat ((c.bytes.drop c.position).take 1)) = some x →
      deserialize_enum_from_u8 fromU8 c = (.ok x, ⟨c.position + 1, c.bytes⟩)) ∧
    (∀ (E : Type) (fromU32 : Nat → Option E) (c : SaveCursor),
      c.position + 4 ≤ c.bytes.length →
      fromU32 (leToNat ((c.bytes.drop c.position).take 4)) = none →
      deserialize_enum_from_u32 fromU32 c =
        (.error .invalidEnumValue, ⟨c.position + 4, c.bytes⟩)) ∧
    (∀ (E : Type) (fromU32 : Nat → Option E) (c : SaveCursor) (x : E),
      c.position + 4 ≤ c.bytes.length →
      fromU32 (leToNat ((c.bytes.drop c.position).take 4)) = some x →
      deserialize_enum_from_u32 fromU32 c = (.ok x, ⟨c.position + 4, c.bytes⟩)) := by
  refine ⟨?_, ?_, ?_, ?_⟩
  · intro E fromU8 c h hf
    unfold deserialize_enum_from_u8
    rw [deserialize_from_u8_ok c h]
    simp [hf]
  · intro E fromU8 c x h hf
    unfold deserialize_enum_from_u8
    rw [deserialize_from_u8_ok c h]
    simp [hf]
  · intro E fromU32 c h hf
    unfold deserialize_enum_from_u32
    rw [deserialize_from_u32_ok c h]
    simp [hf]
  · intro E fromU32 c x h hf
    unfold deserialize_enum_from_u32
    rw [deserialize_from_u32_ok c h]
    simp [hf]

/-- C7 witness: the sample enum with variants `{0,1,2}` — the byte `7`
fails with the invalid-enum error, the byte `2` decodes to its variant,
and the 32-bit integer `7` fails as well. -/
theorem claim_C7_enum_no_default_witness :
    (SampleEnum.fromU8 7 = none ∧
     deserialize_enum_from_u8 SampleEnum.fromU8 (SaveCursor.new [7]) =
       (.error .invalidEnumValue, ⟨1, [7]⟩)) ∧
    (SampleEnum.fromU8 2 = some .two ∧
     deserialize_enum_from_u8 SampleEnum.fromU8 (SaveCursor.new [2]) =
       (.ok .two, ⟨1, [2]⟩)) ∧
    deserialize_enum_from_u32 SampleEnum.fromU8 (SaveCursor.new [7, 0, 0, 0]) =
      (.error .invalidEnumValue, ⟨4, [7, 0, 0, 0]⟩) := by
  refine ⟨⟨by decide, ?_⟩, ⟨by decide, ?_⟩, ?_⟩
  · exact claim_C7_enum_no_default.1 SampleEnum SampleEnum.fromU8
      (SaveCursor.new [7]) (by decide) (by decide)
  · exact claim_C7_enum_no_default.2.1 SampleEnum SampleEnum.fromU8
      (SaveCursor.new [2]) .two (by decide) (by decide)
  · exact claim_C7_enum_no_default.2.2.1 SampleEnum SampleEnum.fromU8
      (SaveCursor.new [7, 0, 0, 0]) (by decide) (by decide)

/-- C8: dynamic-sequence decode reads a 4-byte unsigned length prefix
`n` and decodes exactly `n` elements in order via the element decoder: a
prefix of `0` yields the empty sequence consuming only the 4 prefix
bytes; a non-zero prefix hands over to the `n`-fold element loop; every
successful decode returns exactly as many elements as the prefix said;
the loop runs the element decoder sequentially in source order and
propagates the first element failure. -/
theorem claim_C8_dynamic_sequence :
    (∀ (α : Type) (de : SaveCursor → Except Err α × SaveCursor)
       (c : SaveCursor),
      c.position + 4 ≤ c.bytes.length →
      (c.bytes.drop c.position).take 4 = [0, 0, 0, 0] →
      deserialize_from_array de c = (.ok [], ⟨c.position + 4, c.bytes⟩)) ∧
    (∀ (α : Type) (de : SaveCursor → Except Err α × SaveCursor)
       (c : SaveCursor) (n : Nat),
      c.position + 4 ≤ c.bytes.length →
      n = leToNat ((c.bytes.drop c.position).take 4) → n ≠ 0 →
      deserialize_from_array de c = readElems de n ⟨c.position + 4, c.bytes⟩) ∧
    (∀ (α : Type) (de : SaveCursor → Except Err α × SaveCursor)
       (l : List α) (c c2 : SaveCursor),
      deserialize_from_array de c = (.ok l, c2) →
      l.length = leToNat ((c.bytes.drop c.position).take 4)) ∧
    (∀ (α : Type) (de : SaveCursor → Except Err α × SaveCursor) (n : Nat)
       (c : SaveCursor) (x : α) (c1 : SaveCursor) (l : List α)
       (c2 : SaveCursor),
      de c = (.ok x, c1) → readElems de n c1 = (.ok l, c2) →
      readElems de (n + 1) c = (.ok (x :: l), c2)) ∧
    (∀ (α : Type) (de : SaveCursor → Except Err α × SaveCursor) (n : Nat)
       (c : SaveCursor) (e : Err) (c1 : SaveCursor),
      de c = (.error e, c1) → readElems de (n + 1) c = (.error e, c1)) := by
  refine ⟨?_, ?_, ?_, ?_, ?_⟩
  · intro α de c h hpre
    unfold deserialize_from_array
    rw [deserialize_from_u32_ok c h, hpre]
    simp [leToNat]
  · intro α de c n h hn hne
    unfold deserialize_from_array
    rw [deserialize_from_u32_ok c h, ← hn]
    simp [hne]
  · intro α de l c c2 h
    unfold deserialize_from_array at h
    split at h
    case h_1 => simp at h
    case h_2 len c1 heq =>
      obtain ⟨hlen, hc1, _⟩ := deserialize_from_u32_ok_inv c len c1 heq
      split at h
      case isTrue hz =>
        simp only [Prod.mk.injEq, Except.ok.injEq] at h
        rw [← h.1, ← hlen, hz]
        rfl
      case isFalse hz =>
        rw [← hlen]
        exact readElems_length de len c1 l c2 h
  · intro α de n c x c1 l c2 h1 h2
    rw [readElems_succ_ok de n c x c1 h1, h2]
  · intro α de n c e c1 h1
    exact readElems_succ_err de n c e c1 h1

/-- C8 witness: prefix `0` yields the empty sequence after 4 bytes;
prefix `2` over single-byte elements yields `[7, 9]` in source order;
the loop equations at a concrete element decoder. -/
theorem claim_C8_dynamic_sequence_witness :
    deserialize_from_array deserialize_from_u8 (SaveCursor.new [0, 0, 0, 0]) =
      (.ok [], ⟨4, [0, 0, 0, 0]⟩) ∧
    deserialize_from_array deserialize_from_u8
        (SaveCursor.new [2, 0, 0, 0, 7, 9]) =
      readElems deserialize_from_u8 2 ⟨4, [2, 0, 0, 0, 7, 9]⟩ ∧
    deserialize_from_array deserialize_from_u8
        (SaveCursor.new [2, 0, 0, 0, 7, 9]) =
      (.ok [7, 9], ⟨6, [2, 0, 0, 0, 7, 9]⟩) := by
  refine ⟨?_, ?_, by decide⟩
  · exact claim_C8_dynamic_sequence.1 Nat deserialize_from_u8
      (SaveCursor.new [0, 0, 0, 0]) (by decide) (by decide)
  · exact claim_C8_dynamic_sequence.2.1 Nat deserialize_from_u8
      (SaveCursor.new [2, 0, 0, 0, 7, 9]) 2 (by decide) (by decide) (by decide)

/-- C5: ordered-map decode reads a 4-byte unsigned count and that many
key/value pairs in order; the stream `count 3, (1,10), (2,20), (1,30)`
yields a map of size 2 in which key `1` maps to `30` (last write wins)
and iteration order is `[1, 2]`.  `IndexMap::insert` on a present key
keeps the map's length and key order and only replaces the value; on a
fresh key it appends. -/
theorem claim_C5_indexmap_last_write_wins :
    deserialize_from_indexmap deserialize_from_u8 deserialize_from_u8
        (fun a b => a == b)
        (SaveCursor.new [3, 0, 0, 0, 1, 10, 2, 20, 1, 30]) =
      (.ok [(1, 30), (2, 20)], ⟨10, [3, 0, 0, 0, 1, 10, 2, 20, 1, 30]⟩) ∧
    (∀ (κ ν : Type) (beq : κ → κ → Bool) (m : List (κ × ν)) (k : κ) (v : ν),
      (m.any fun p => beq p.1 k) = true →
      (indexInsert beq m k v).length = m.length ∧
      (indexInsert beq m k v).map Prod.fst = m.map Prod.fst) ∧
    (∀ (κ ν : Type) (beq : κ → κ → Bool) (m : List (κ × ν)) (k : κ) (v : ν),
      (m.any fun p => beq p.1 k) = false →
      indexInsert beq m k v = m ++ [(k, v)]) := by
  refine ⟨by decide, ?_, ?_⟩
  · intro κ ν beq m k v h
    unfold indexInsert
    rw [if_pos h]
    refine ⟨by simp, ?_⟩
    rw [List.map_map]
    apply List.map_congr_left
    intro p _
    simp only [Function.comp_apply]
    split <;> rfl
  · intro κ ν beq m k v h
    unfold indexInsert
    rw [if_neg (by simp [h])]

/-- C5 witness: inserting key `1` into `[(1,10), (2,20)]` keeps size 2
and key order `[1, 2]`; inserting fresh key `2` into `[(1,10)]`
appends. -/
theorem claim_C5_indexmap_last_write_wins_witness :
    ((([(1, 10), (2, 20)] : List (Nat × Nat)).any fun p => p.1 == 1) = true ∧
     (indexInsert (fun a b => a == b) [(1, 10), (2, 20)] 1 30).length = 2 ∧
     (indexInsert (fun a b => a == b) [(1, 10), (2, 20)] 1 30).map Prod.fst =
       [1, 2]) ∧
    ((([(1, 10)] : List (Nat × Nat)).any fun p => p.1 == 2) = false ∧
     indexInsert (fun a b => a == b) [(1, 10)] 2 40 = [(1, 10), (2, 40)]) := by
  refine ⟨⟨by decide, ?_, ?_⟩, ⟨by decide, ?_⟩⟩
  · exact (claim_C5_indexmap_last_write_wins.2.1 Nat Nat (fun a b => a == b)
      [(1, 10), (2, 20)] 1 30 (by decide)).1
  · exact (claim_C5_indexmap_last_write_wins.2.1 Nat Nat (fun a b => a == b)
      [(1, 10), (2, 20)] 1 30 (by decide)).2
  · exact claim_C5_indexmap_last_write_wins.2.2 Nat Nat (fun a b => a == b)
      [(1, 10)] 2 40 (by decide)

/-- C9 counterexample: over the 2-byte buffer `[1, 2]` with `LENGTH = 3`,
the per-byte fixed-array decode fails with its cursor advanced to
position 2 (the two available bytes were consumed by successful 1-byte
reads before the third failed), while the bulk `read(3)` fails with the
cursor still at position 0 — the two failure cursors do not agree, so
the claimed equivalence of final cursor positions on failure is false. -/
theorem claim_C9_counterexample :
    deserialize_byte_array 3 (SaveCursor.mk 0 [1, 2]) =
      (.error .unexpectedEndOfFile, ⟨2, [1, 2]⟩) ∧
    (SaveCursor.mk 0 [1, 2]).read 3 =
      (.error .unexpectedEndOfFile, ⟨0, [1, 2]⟩) ∧
    (deserialize_byte_array 3 (SaveCursor.mk 0 [1, 2])).2.position ≠
      ((SaveCursor.mk 0 [1, 2]).read 3).2.position := by
  decide

/-- C9 amended: when at least `LENGTH` bytes remain, the per-byte
fixed-array decode and the bulk `read(LENGTH)` agree exactly — same
bytes, same final cursor.  When fewer remain both fail with
`UnexpectedEndOfFile`, but the per-byte decode leaves the cursor at the
end of the buffer (each successful 1-byte read advanced it; the failing
one did not), while the bulk read leaves the cursor unchanged. -/
theorem claim_C9_bytearray_vs_bulk :
    (∀ (n : Nat) (c : SaveCursor), c.position + n ≤ c.bytes.length →
      deserialize_byte_array n c =
        (.ok ((c.bytes.drop c.position).take n), ⟨c.position + n, c.bytes⟩) ∧
      c.read n =
        (.ok ((c.bytes.drop c.position).take n), ⟨c.position + n, c.bytes⟩)) ∧
    (∀ (n : Nat) (c : SaveCursor), c.position ≤ c.bytes.length →
      c.bytes.length < c.position + n →
      deserialize_byte_array n c =
        (.error .unexpectedEndOfFile, ⟨c.bytes.length, c.bytes⟩) ∧
      c.read n = (.error .unexpectedEndOfFile, c)) := by
  constructor
  · intro n c h
    exact ⟨byteLoop_ok n c h, read_ok c n h⟩
  · intro n c h1 h2
    exact ⟨byteLoop_err n c h1 h2, read_err c n h2⟩

/-- C9 amended witness: agreement on success over `[9, 8, 7]` with
`LENGTH = 2`; divergent failure cursors over `[1, 2]` with
`LENGTH = 3`. -/
theorem claim_C9_bytearray_vs_bulk_witness :
    (deserialize_byte_array 2 (SaveCursor.mk 0 [9, 8, 7]) =
       (.ok [9, 8], ⟨2, [9, 8, 7]⟩) ∧
     (SaveCursor.mk 0 [9, 8, 7]).read 2 = (.ok [9, 8], ⟨2, [9, 8, 7]⟩)) ∧
    (deserialize_byte_array 3 (SaveCursor.mk 0 [1, 2]) =
       (.error .unexpectedEndOfFile, ⟨2, [1, 2]⟩) ∧
     (SaveCursor.mk 0 [1, 2]).read 3 =
       (.error .unexpectedEndOfFile, SaveCursor.mk 0 [1, 2])) := by
  constructor
  · exact claim_C9_bytearray_vs_bulk.1 2 (SaveCursor.mk 0 [9, 8, 7]) (by decide)
  · exact claim_C9_bytearray_vs_bulk.2 3 (SaveCursor.mk 0 [1, 2]) (by decide)
      (by decide)

/-- C10 witness: the `-2^31` behaviour on a concrete 4-byte buffer, and
the at-least-2-text-bytes fact at `-3`. -/
theorem claim_C10_min_i32_wrap_witness :
    deserialize_from_string (SaveCursor.new [0, 0, 0, 0x80]) =
      (.ok [], ⟨4, [0, 0, 0, 0x80]⟩) ∧
    ((-(2 ^ 31) : Int) ≤ -3 ∧ (-3 : Int) < 0 ∧ (-3 : Int) ≠ -(2 ^ 31) ∧
     2 ≤ negStrLen (-3)) := by
  refine ⟨?_, by decide, by decide, by decide, ?_⟩
  · rw [claim_C10_min_i32_wrap.2.1 (SaveCursor.new [0, 0, 0, 0x80])
      (by decide) (by rfl)]
    rfl
  · exact claim_C10_min_i32_wrap.2.2 (-3) (by decide) (by decide) (by decide)

/-- The empty slice. -/
theorem slicePB_refl (B : List Nat) (p : Nat) : slicePB B p p = [] := by
  simp [slicePB]

/-- Splitting a slice at an intermediate position. -/
theorem slicePB_split (B : List Nat) (p1 p2 p3 : Nat) (h1 : p1 ≤ p2)
    (h2 : p2 ≤ p3) :
    slicePB B p1 p3 = slicePB B p1 p2 ++ slicePB B p2 p3 := by
  unfold slicePB
  rw [show p3 - p1 = (p2 - p1) + (p3 - p2) from by omega, List.take_add,
    List.drop_drop, show p1 + (p2 - p1) = p2 from by omega]

/-- The slice a `read n` from position `p` returns. -/
theorem slicePB_read (B : List Nat) (p n : Nat) :
    slicePB B p (p + n) = (B.drop p).take n := by
  unfold slicePB
  congr 1
  omega

/-- Bytes of a take-of-drop slice stay below 256 when the buffer's
do. -/
theorem take_drop_all_lt (B : List Nat) (hb : ∀ b ∈ B, b < 256)
    (p q : Nat) : ∀ x ∈ (B.drop p).take q, x < 256 := by
  intro x hx
  exact hb x (List.mem_of_mem_drop (List.mem_of_mem_take hx))

/-- Little-endian re-serialization inverts little-endian decoding. -/
theorem natToLe_leToNat : ∀ (bs : List Nat), (∀ b ∈ bs, b < 256) →
    natToLe bs.length (leToNat bs) = bs := by
  intro bs
  induction bs with
  | nil => intro _; rfl
  | cons b rest ih =>
    intro hb
    have hblt : b < 256 := hb b (by simp)
    show natToLe (rest.length + 1) (leToNat (b :: rest)) = b :: rest
    simp only [natToLe, leToNat]
    have h1 : (b + 256 * leToNat rest) % 256 = b := by omega
    have h2 : (b + 256 * leToNat rest) / 256 = leToNat rest := by omega
    rw [h1, h2, ih fun x hx => hb x (by simp [hx])]

/-- Decoded little-endian values are bounded by the byte width. -/
theorem leToNat_lt : ∀ (bs : List Nat), (∀ b ∈ bs, b < 256) →
    leToNat bs < 256 ^ bs.length := by
  intro bs
  induction bs with
  | nil => intro _; simp [leToNat]
  | cons b rest ih =>
    intro hb
    have hblt : b < 256 := hb b (by simp)
    have hr := ih fun x hx => hb x (by simp [hx])
    simp only [leToNat, List.length_cons]
    rw [pow_succ]
    omega

/-- The 4-byte slice round trip and bound, packaged. -/
theorem natToLe4_slice (B : List Nat) (hb : ∀ b ∈ B, b < 256) (p : Nat)
    (h4 : p + 4 ≤ B.length) :
    natToLe 4 (leToNat ((B.drop p).take 4)) = (B.drop p).take 4 ∧
    leToNat ((B.drop p).take 4) < 2 ^ 32 := by
  have hlen : ((B.drop p).take 4).length = 4 := by
    simp only [List.length_take, List.length_drop]
    omega
  have hall := take_drop_all_lt B hb p 4
  constructor
  · have h := natToLe_leToNat ((B.drop p).take 4) hall
    rw [hlen] at h
    exact h
  · have h := leToNat_lt ((B.drop p).take 4) hall
    rw [hlen] at h
    have e : (256 : Nat) ^ 4 = 2 ^ 32 := by norm_num
    rw [e] at h
    exact h

/-- The 1-byte slice round trip and bound, packaged. -/
theorem natToLe1_slice (B : List Nat) (hb : ∀ b ∈ B, b < 256) (p : Nat)
    (h1 : p + 1 ≤ B.length) :
    natToLe 1 (leToNat ((B.drop p).take 1)) = (B.drop p).take 1 ∧
    leToNat ((B.drop p).take 1) < 2 ^ 8 := by
  have hlen : ((B.drop p).take 1).length = 1 := by
    simp only [List.length_take, List.length_drop]
    omega
  have hall := take_drop_all_lt B hb p 1
  constructor
  · have h := natToLe_leToNat ((B.drop p).take 1) hall
    rw [hlen] at h
    exact h
  · have h := leToNat_lt ((B.drop p).take 1) hall
    rw [hlen] at h
    have e : (256 : Nat) ^ 1 = 2 ^ 8 := by norm_num
    rw [e] at h
    exact h

/-- The `i32` two's-complement reinterpretation is undone by reduction
mod `2^32`. -/
theorem toInt32_emod (u : Nat) (h : u < 2 ^ 32) :
    ((toInt32 u) % (2 ^ 32 : Int)).toNat = u := by
  simp only [toInt32]
  norm_num
  split_ifs <;> omega

/-- The `i8` two's-complement reinterpretation is undone by reduction
mod `2^8`. -/
theorem toInt8_emod (u : Nat) (h : u < 2 ^ 8) :
    ((toInt8 u) % (2 ^ 8 : Int)).toNat = u := by
  simp only [toInt8]
  norm_num
  split_ifs <;> omega

/-- In the `i32` range, the reinterpretation reflects `0` and `1`. -/
theorem toInt32_small (u : Nat) (h : u < 2 ^ 32) :
    (toInt32 u = 0 → u = 0) ∧ (toInt32 u = 1 → u = 1) := by
  simp only [toInt32]
  norm_num
  split_ifs <;> omega

/-- Reducing a byte list mod 256 is the identity on byte lists. -/
theorem map_mod_id (l : List Nat) (h : ∀ x ∈ l, x < 256) :
    l.map (· % 256) = l := by
  conv_rhs => rw [← List.map_id l]
  apply List.map_congr_left
  intro x hx
  simp [Nat.mod_eq_of_lt (h x hx)]

/-- Inserting a fresh key appends in insertion order. -/
theorem indexInsert_fresh {κ ν : Type} (beq : κ → κ → Bool)
    (m : List (κ × ν)) (k : κ) (v : ν)
    (h : (m.any fun p => beq p.1 k) = false) :
    indexInsert beq m k v = m ++ [(k, v)] := by
  unfold indexInsert
  rw [if_neg (by simp [h])]

/-- The canonical-decode contract of one step: decode agrees, the
buffer is untouched, the position moves monotonically within bounds,
and the spec-modelled encoder reproduces exactly the consumed bytes. -/
def CanonStep (g : SaveCursor → Except Err Value × SaveCursor)
    (enc : Value → Option (List Nat))
    (c : SaveCursor) (v : Value) (c2 : SaveCursor) : Prop :=
  g c = (.ok v, c2) ∧ c2.bytes = c.bytes ∧ c.position ≤ c2.position ∧
  c2.position ≤ c.bytes.length ∧
  enc v = some (slicePB c.bytes c.position c2.position)

/-- Inversion of a successful 4-byte signed read. -/
theorem deserialize_from_i32_ok_inv (c : SaveCursor) (x : Int)
    (c1 : SaveCursor) (h : deserialize_from_i32 c = (.ok x, c1)) :
    x = toInt32 (leToNat ((c.bytes.drop c.position).take 4)) ∧
    c1 = ⟨c.position + 4, c.bytes⟩ ∧ c.position + 4 ≤ c.bytes.length := by
  unfold deserialize_from_i32 at h
  split at h
  case h_1 bs c2 heq =>
    obtain ⟨hb, hout, hc⟩ := read_ok_inv c 4 bs c2 heq
    simp only [Prod.mk.injEq, Except.ok.injEq] at h
    exact ⟨h.1.symm.trans (by rw [hout]), h.2.symm.trans hc, hb⟩
  case h_2 e c2 heq => simp at h

/-- Inversion of a successful single-byte read. -/
theorem deserialize_from_u8_ok_inv (c : SaveCursor) (n : Nat)
    (c1 : SaveCursor) (h : deserialize_from_u8 c = (.ok n, c1)) :
    n = leToNat ((c.bytes.drop c.position).take 1) ∧
    c1 = ⟨c.position + 1, c.bytes⟩ ∧ c.position + 1 ≤ c.bytes.length := by
  unfold deserialize_from_u8 at h
  split at h
  case h_1 bs c2 heq =>
    obtain ⟨hb, hout, hc⟩ := read_ok_inv c 1 bs c2 heq
    simp only [Prod.mk.injEq, Except.ok.injEq] at h
    exact ⟨h.1.symm.trans (by rw [hout]), h.2.symm.trans hc, hb⟩
  case h_2 e c2 heq => simp at h

/-- Inversion of a successful single-byte signed read. -/
theorem deserialize_from_i8_ok_inv (c : SaveCursor) (x : Int)
    (c1 : SaveCursor) (h : deserialize_from_i8 c = (.ok x, c1)) :
    x = toInt8 (leToNat ((c.bytes.drop c.position).take 1)) ∧
    c1 = ⟨c.position + 1, c.bytes⟩ ∧ c.position + 1 ≤ c.bytes.length := by
  unfold deserialize_from_i8 at h
  split at h
  case h_1 bs c2 heq =>
    obtain ⟨hb, hout, hc⟩ := read_ok_inv c 1 bs c2 heq
    simp only [Prod.mk.injEq, Except.ok.injEq] at h
    exact ⟨h.1.symm.trans (by rw [hout]), h.2.symm.trans hc, hb⟩
  case h_2 e c2 heq => simp at h

/-- Inversion of a successful 4-byte float-bit read. -/
theorem deserialize_from_f32bits_ok_inv (c : SaveCursor) (n : Nat)
    (c1 : SaveCursor) (h : deserialize_from_f32bits c = (.ok n, c1)) :
    n = leToNat ((c.bytes.drop c.position).take 4) ∧
    c1 = ⟨c.position + 4, c.bytes⟩ ∧ c.position + 4 ≤ c.bytes.length := by
  unfold deserialize_from_f32bits at h
  split at h
  case h_1 bs c2 heq =>
    obtain ⟨hb, hout, hc⟩ := read_ok_inv c 4 bs c2 heq
    simp only [Prod.mk.injEq, Except.ok.injEq] at h
    exact ⟨h.1.symm.trans (by rw [hout]), h.2.symm.trans hc, hb⟩
  case h_2 e c2 heq => simp at h

/-- Inversion of a successful per-byte fixed-array decode (on an
in-bounds cursor). -/
theorem deserialize_byte_array_ok_inv (n : Nat) (c : SaveCursor)
    (bs : List Nat) (c1 : SaveCursor) (hp : c.position ≤ c.bytes.length)
    (h : deserialize_byte_array n c = (.ok bs, c1)) :
    bs = (c.bytes.drop c.position).take n ∧
    c1 = ⟨c.position + n, c.bytes⟩ ∧ c.position + n ≤ c.bytes.length := by
  by_cases hb : c.position + n ≤ c.bytes.length
  · unfold deserialize_byte_array at h
    rw [byteLoop_ok n c hb] at h
    simp only [Prod.mk.injEq, Except.ok.injEq] at h
    exact ⟨h.1.symm, h.2.symm, hb⟩
  · unfold deserialize_byte_array at h
    rw [byteLoop_err n c hp (by omega)] at h
    simp at h

/-- Soundness of the canonicality element loop: when every element step
satisfies the canonical-decode contract, so does the loop — the decode
loop agrees value for value, and the concatenated element encodings are
exactly the consumed bytes. -/
theorem canonElems_sound (f : SaveCursor → Option (Value × SaveCursor))
    (g : SaveCursor → Except Err Value × SaveCursor)
    (enc : Value → Option (List Nat))
    (helem : ∀ c v c2, (∀ b ∈ c.bytes, b < 256) →
      c.position ≤ c.bytes.length → f c = some (v, c2) →
      CanonStep g enc c v c2) :
    ∀ (n : Nat) (c : SaveCursor) (vs : List Value) (c2 : SaveCursor),
      (∀ b ∈ c.bytes, b < 256) → c.position ≤ c.bytes.length →
      canonElems f n c = some (vs, c2) →
      readElems g n c = (.ok vs, c2) ∧ c2.bytes = c.bytes ∧
      c.position ≤ c2.position ∧ c2.position ≤ c.bytes.length ∧
      vs.length = n ∧
      encodeListWith enc vs =
        some (slicePB c.bytes c.position c2.position) := by
  intro n
  induction n with
  | zero =>
    intro c vs c2 hb hp h
    unfold canonElems at h
    simp only [Option.some.injEq, Prod.mk.injEq] at h
    obtain ⟨hvs, hc⟩ := h
    subst hvs hc
    exact ⟨rfl, rfl, Nat.le_refl _, hp, rfl, by rw [slicePB_refl]; rfl⟩
  | succ n ih =>
    intro c vs c2 hb hp h
    unfold canonElems at h
    split at h
    case h_1 => simp at h
    case h_2 x c1 heq =>
      split at h
      case h_1 => simp at h
      case h_2 xs c2a heq2 =>
        simp only [Option.some.injEq, Prod.mk.injEq] at h
        obtain ⟨hvs, hc⟩ := h
        subst hvs hc
        obtain ⟨hg, hbytes, hple, hplen, hencx⟩ := helem c x c1 hb hp heq
        have hb1 : ∀ b ∈ c1.bytes, b < 256 := by rw [hbytes]; exact hb
        have hp1 : c1.position ≤ c1.bytes.length := by rw [hbytes]; exact hplen
        obtain ⟨hre, hbytes2, hple2, hplen2, hlen, hencxs⟩ :=
          ih c1 xs c2a hb1 hp1 heq2
        have hlb : c1.bytes.length = c.bytes.length := by rw [hbytes]
        refine ⟨?_, ?_, by omega, by omega, by simp [hlen], ?_⟩
        · rw [readElems_succ_ok g n c x c1 hg, hre]
        · rw [hbytes2, hbytes]
        · unfold encodeListWith
          rw [hbytes] at hencxs
          rw [hencx, hencxs,
            slicePB_split c.bytes c.position c1.position c2a.position hple hple2]

/-- Stepping the pair loop past a successful key and value decode. -/
theorem readPairs_step {κ ν : Type}
    (gK : SaveCursor → Except Err κ × SaveCursor)
    (gV : SaveCursor → Except Err ν × SaveCursor) (beq : κ → κ → Bool)
    (n : Nat) (m : List (κ × ν)) (c : SaveCursor) (k : κ) (c1 : SaveCursor)
    (v : ν) (c2 : SaveCursor) (h1 : gK c = (.ok k, c1))
    (h2 : gV c1 = (.ok v, c2)) :
    readPairs gK gV beq (n + 1) m c =
      readPairs gK gV beq n (indexInsert beq m k v) c2 := by
  conv_lhs => rw [readPairs]
  rw [h1]
  show (match gV c1 with
    | (Except.error e, c2) => ((Except.error e : Except Err (List (κ × ν))), c2)
    | (Except.ok v, c2) => readPairs gK gV beq n (indexInsert beq m k v) c2) = _
  rw [h2]

/-- Soundness of the canonicality pair loop: fresh keys make every
`IndexMap::insert` an append, so the decode loop accumulates the same
pair list, of length equal to the stream count, and the pairwise
encodings are exactly the consumed bytes. -/
theorem canonPairs_sound (fK fV : SaveCursor → Option (Value × SaveCursor))
    (gK gV : SaveCursor → Except Err Value × SaveCursor)
    (encK encV : Value → Option (List Nat))
    (hkey : ∀ c v c2, (∀ b ∈ c.bytes, b < 256) →
      c.position ≤ c.bytes.length → fK c = some (v, c2) →
      CanonStep gK encK c v c2)
    (hval : ∀ c v c2, (∀ b ∈ c.bytes, b < 256) →
      c.position ≤ c.bytes.length → fV c = some (v, c2) →
      CanonStep gV encV c v c2) :
    ∀ (n : Nat) (m : List (Value × Value)) (c : SaveCursor)
      (es : List (Value × Value)) (c2 : SaveCursor),
      (∀ b ∈ c.bytes, b < 256) → c.position ≤ c.bytes.length →
      canonPairs fK fV n m c = some (es, c2) →
      readPairs gK gV Value.beq n m c = (.ok es, c2) ∧ c2.bytes = c.bytes ∧
      c.position ≤ c2.position ∧ c2.position ≤ c.bytes.length ∧
      ∃ new, es = m ++ new ∧ new.length = n ∧
        encodePairsWith encK encV new =
          some (slicePB c.bytes c.position c2.position) := by
  intro n
  induction n with
  | zero =>
    intro m c es c2 hb hp h
    unfold canonPairs at h
    simp only [Option.some.injEq, Prod.mk.injEq] at h
    obtain ⟨hes, hc⟩ := h
    subst hes hc
    exact ⟨rfl, rfl, Nat.le_refl _, hp, [], by simp, rfl,
      by rw [slicePB_refl]; rfl⟩
  | succ n ih =>
    intro m c es c2 hb hp h
    unfold canonPairs at h
    split at h
    case h_1 => simp at h
    case h_2 k c1 heqK =>
      split at h
      case h_1 => simp at h
      case h_2 v c2a heqV =>
        split at h
        case isTrue => simp at h
        case isFalse hfresh =>
          obtain ⟨hgK, hbK, hpleK, hplenK, hencK⟩ := hkey c k c1 hb hp heqK
          have hb1 : ∀ b ∈ c1.bytes, b < 256 := by rw [hbK]; exact hb
          have hp1 : c1.position ≤ c1.bytes.length := by rw [hbK]; exact hplenK
          obtain ⟨hgV, hbV, hpleV, hplenV, hencV⟩ := hval c1 v c2a hb1 hp1 heqV
          have hb2 : ∀ b ∈ c2a.bytes, b < 256 := by rw [hbV]; exact hb1
          have hp2 : c2a.position ≤ c2a.bytes.length := by rw [hbV]; exact hplenV
          obtain ⟨hrp, hbR, hpleR, hplenR, new, hes, hlen, hencR⟩ :=
            ih (m ++ [(k, v)]) c2a es c2 hb2 hp2 h
          have hlb1 : c1.bytes.length = c.bytes.length := by rw [hbK]
          have hlb2 : c2a.bytes.length = c1.bytes.length := by rw [hbV]
          refine ⟨?_, ?_, by omega, by omega, (k, v) :: new, by simp [hes],
            by simp [hlen], ?_⟩
          · rw [readPairs_step gK gV Value.beq n m c k c1 v c2a hgK hgV,
              indexInsert_fresh Value.beq m k v (by simpa using hfresh), hrp]
          · rw [hbR, hbV, hbK]
          · unfold encodePairsWith
            rw [hbV, hbK] at hencR
            rw [hbK] at hencV
            rw [hencK, hencV, hencR]
            rw [slicePB_split c.bytes c.position c1.position c2.position hpleK
              (by omega),
              slicePB_split c.bytes c1.position c2a.position c2.position hpleV
              (by omega)]
            simp

/-- Soundness of the canonicality checker: on canonical bytes, `decode`
returns the checked value over the same cursor motion, and the
spec-modelled `encode` reproduces exactly the consumed bytes. -/
theorem canon_sound : ∀ (d : Desc) (c : SaveCursor) (v : Value)
    (c2 : SaveCursor), (∀ b ∈ c.bytes, b < 256) →
    c.position ≤ c.bytes.length → canon d c = some (v, c2) →
    CanonStep (decode d) (encode d) c v c2 := by
  intro d
  induction d with
  | u8D =>
    intro c v c2 hb hp h
    simp only [canon] at h
    split at h
    case h_2 => simp at h
    case h_1 n c1 heq =>
      simp only [Option.some.injEq, Prod.mk.injEq] at h
      obtain ⟨hv, hc⟩ := h
      subst hv hc
      obtain ⟨hn, hc1, hbound⟩ := deserialize_from_u8_ok_inv c n c1 heq
      subst hc1
      refine ⟨?_, rfl, Nat.le_add_right _ _, hbound, ?_⟩
      · show mapOk Value.vU8 (deserialize_from_u8 c) = _
        rw [heq]
        rfl
      · show some (natToLe 1 n) =
          some (slicePB c.bytes c.position (c.position + 1))
        rw [hn, (natToLe1_slice c.bytes hb c.position hbound).1, slicePB_read]
  | i8D =>
    intro c v c2 hb hp h
    simp only [canon] at h
    split at h
    case h_2 => simp at h
    case h_1 x c1 heq =>
      simp only [Option.some.injEq, Prod.mk.injEq] at h
      obtain ⟨hv, hc⟩ := h
      subst hv hc
      obtain ⟨hx, hc1, hbound⟩ := deserialize_from_i8_ok_inv c x c1 heq
      subst hc1
      refine ⟨?_, rfl, Nat.le_add_right _ _, hbound, ?_⟩
      · show mapOk Value.vI8 (deserialize_from_i8 c) = _
        rw [heq]
        rfl
      · show some (natToLe 1 ((x % (2 ^ 8 : Int)).toNat)) =
          some (slicePB c.bytes c.position (c.position + 1))
        rw [hx, toInt8_emod _ (natToLe1_slice c.bytes hb c.position hbound).2,
          (natToLe1_slice c.bytes hb c.position hbound).1, slicePB_read]
  | i32D =>
    intro c v c2 hb hp h
    simp only [canon] at h
    split at h
    case h_2 => simp at h
    case h_1 x c1 heq =>
      simp only [Option.some.injEq, Prod.mk.injEq] at h
      obtain ⟨hv, hc⟩ := h
      subst hv hc
      obtain ⟨hx, hc1, hbound⟩ := deserialize_from_i32_ok_inv c x c1 heq
      subst hc1
      refine ⟨?_, rfl, Nat.le_add_right _ _, hbound, ?_⟩
      · show mapOk Value.vI32 (deserialize_from_i32 c) = _
        rw [heq]
        rfl
      · show some (natToLe 4 ((x % (2 ^ 32 : Int)).toNat)) =
          some (slicePB c.bytes c.position (c.position + 4))
        rw [hx, toInt32_emod _ (natToLe4_slice c.bytes hb c.position hbound).2,
          (natToLe4_slice c.bytes hb c.position hbound).1, slicePB_read]
  | u32D =>
    intro c v c2 hb hp h
    simp only [canon] at h
    split at h
    case h_2 => simp at h
    case h_1 n c1 heq =>
      simp only [Option.some.injEq, Prod.mk.injEq] at h
      obtain ⟨hv, hc⟩ := h
      subst hv hc
      obtain ⟨hn, hc1, hbound⟩ := deserialize_from_u32_ok_inv c n c1 heq
      subst hc1
      refine ⟨?_, rfl, Nat.le_add_right _ _, hbound, ?_⟩
      · show mapOk Value.vU32 (deserialize_from_u32 c) = _
        rw [heq]
        rfl
      · show some (natToLe 4 n) =
          some (slicePB c.bytes c.position (c.position + 4))
        rw [hn, (natToLe4_slice c.bytes hb c.position hbound).1, slicePB_read]
  | f32D =>
    intro c v c2 hb hp h
    simp only [canon] at h
    split at h
    case h_2 => simp at h
    case h_1 n c1 heq =>
      simp only [Option.some.injEq, Prod.mk.injEq] at h
      obtain ⟨hv, hc⟩ := h
      subst hv hc
      obtain ⟨hn, hc1, hbound⟩ := deserialize_from_f32bits_ok_inv c n c1 heq
      subst hc1
      refine ⟨?_, rfl, Nat.le_add_right _ _, hbound, ?_⟩
      · show mapOk Value.vF32 (deserialize_from_f32bits c) = _
        rw [heq]
        rfl
      · show some (natToLe 4 n) =
          some (slicePB c.bytes c.position (c.position + 4))
        rw [hn, (natToLe4_slice c.bytes hb c.position hbound).1, slicePB_read]
  | boolD =>
    intro c v c2 hb hp h
    simp only [canon] at h
    split at h
    case h_2 => simp at h
    case h_1 x c1 heq =>
      split at h
      case isFalse => simp at h
      case isTrue hsmall =>
        simp only [Option.some.injEq, Prod.mk.injEq] at h
        obtain ⟨hv, hc⟩ := h
        subst hv hc
        obtain ⟨hx, hc1, hbound⟩ := deserialize_from_i32_ok_inv c x c1 heq
        subst hc1
        have hu32 := (natToLe4_slice c.bytes hb c.position hbound).2
        refine ⟨?_, rfl, Nat.le_add_right _ _, hbound, ?_⟩
        · show mapOk Value.vBool (deserialize_from_bool c) = _
          unfold deserialize_from_bool
          rw [heq]
          rfl
        · show some (natToLe 4 (if decide (x ≠ 0) = true then 1 else 0)) =
            some (slicePB c.bytes c.position (c.position + 4))
          rcases hsmall with h0 | h1
          · have hu : leToNat ((c.bytes.drop c.position).take 4) = 0 :=
              (toInt32_small _ hu32).1 (by rw [← hx, h0])
            rw [h0]
            norm_num
            rw [show (0 : Nat) = leToNat ((c.bytes.drop c.position).take 4)
                from hu.symm,
              (natToLe4_slice c.bytes hb c.position hbound).1, slicePB_read]
          · have hu : leToNat ((c.bytes.drop c.position).take 4) = 1 :=
              (toInt32_small _ hu32).2 (by rw [← hx, h1])
            rw [h1]
            norm_num
            rw [show (1 : Nat) = leToNat ((c.bytes.drop c.position).take 4)
                from hu.symm,
              (natToLe4_slice c.bytes hb c.position hbound).1, slicePB_read]
  | fixedD n =>
    intro c v c2 hb hp h
    simp only [canon] at h
    split at h
    case h_2 => simp at h
    case h_1 bs c1 heq =>
      simp only [Option.some.injEq, Prod.mk.injEq] at h
      obtain ⟨hv, hc⟩ := h
      subst hv hc
      obtain ⟨hbs, hc1, hbound⟩ := deserialize_byte_array_ok_inv n c bs c1 hp heq
      subst hc1
      have hblen : bs.length = n := by
        rw [hbs]
        simp only [List.length_take, List.length_drop]
        omega
      refine ⟨?_, rfl, Nat.le_add_right _ _, hbound, ?_⟩
      · show mapOk Value.vBytes (deserialize_byte_array n c) = _
        rw [heq]
        rfl
      · show (if bs.length = n then some (bs.map (· % 256)) else none) =
          some (slicePB c.bytes c.position (c.position + n))
        rw [if_pos hblen,
          map_mod_id bs (by rw [hbs]; exact take_drop_all_lt c.bytes hb _ _),
          hbs, slicePB_read]
  | strD =>
    intro c v c2 hb hp h
    simp only [canon] at h
    simp at h
  | arrD d ih =>
    intro c v c2 hb hp h
    simp only [canon] at h
    split at h
    case h_2 => simp at h
    case h_1 len c1 heq =>
      obtain ⟨hlen, hc1, hbound⟩ := deserialize_from_u32_ok_inv c len c1 heq
      subst hc1
      split at h
      case isTrue hz =>
        simp only [Option.some.injEq, Prod.mk.injEq] at h
        obtain ⟨hv, hc⟩ := h
        subst hv hc
        have h0 : leToNat ((c.bytes.drop c.position).take 4) = 0 := by omega
        refine ⟨?_, rfl, Nat.le_add_right _ _, hbound, ?_⟩
        · show mapOk Value.vArr (deserialize_from_array (decode d) c) = _
          unfold deserialize_from_array
          rw [heq]
          show mapOk Value.vArr
              (if len = 0 then (Except.ok [], ⟨c.position + 4, c.bytes⟩)
               else readElems (decode d) len ⟨c.position + 4, c.bytes⟩) = _
          rw [if_pos hz]
          rfl
        · show some (natToLe 4 (0 : Nat) ++ []) =
            some (slicePB c.bytes c.position (c.position + 4))
          rw [List.append_nil, show (0 : Nat) =
              leToNat ((c.bytes.drop c.position).take 4) from h0.symm,
            (natToLe4_slice c.bytes hb c.position hbound).1, slicePB_read]
      case isFalse hz =>
        split at h
        case h_2 => simp at h
        case h_1 vs c2a heq2 =>
          simp only [Option.some.injEq, Prod.mk.injEq] at h
          obtain ⟨hv, hc⟩ := h
          subst hv hc
          obtain ⟨hre, hbytes2, hple2, hplen2, hlenvs, hencvs⟩ :=
            canonElems_sound (canon d) (decode d) (encode d) ih len
              ⟨c.position + 4, c.bytes⟩ vs c2a hb hbound heq2
          have hb2 : c2a.bytes = c.bytes := hbytes2
          have hp2 : c.position + 4 ≤ c2a.position := hple2
          have hp3 : c2a.position ≤ c.bytes.length := hplen2
          refine ⟨?_, hb2, by omega, hp3, ?_⟩
          · show mapOk Value.vArr (deserialize_from_array (decode d) c) = _
            unfold deserialize_from_array
            rw [heq]
            show mapOk Value.vArr
                (if len = 0 then (Except.ok [], ⟨c.position + 4, c.bytes⟩)
                 else readElems (decode d) len ⟨c.position + 4, c.bytes⟩) = _
            rw [if_neg hz, hre]
            rfl
          · show (match encodeListWith (encode d) vs with
              | some body => some (natToLe 4 vs.length ++ body)
              | none => none) =
              some (slicePB c.bytes c.position c2a.position)
            have hencvs2 : encodeListWith (encode d) vs =
                some (slicePB c.bytes (c.position + 4) c2a.position) := hencvs
            rw [hencvs2, hlenvs, hlen,
              (natToLe4_slice c.bytes hb c.position hbound).1, ← slicePB_read]
            show some (slicePB c.bytes c.position (c.position + 4) ++
                slicePB c.bytes (c.position + 4) c2a.position) =
              some (slicePB c.bytes c.position c2a.position)
            rw [← slicePB_split c.bytes c.position (c.position + 4) c2a.position
              (by omega) hp2]
  | mapD kd vd ihK ihV =>
    intro c v c2 hb hp h
    simp only [canon] at h
    split at h
    case h_2 => simp at h
    case h_1 len c1 heq =>
      obtain ⟨hlen, hc1, hbound⟩ := deserialize_from_u32_ok_inv c len c1 heq
      subst hc1
      split at h
      case isTrue hz =>
        simp only [Option.some.injEq, Prod.mk.injEq] at h
        obtain ⟨hv, hc⟩ := h
        subst hv hc
        have h0 : leToNat ((c.bytes.drop c.position).take 4) = 0 := by omega
        refine ⟨?_, rfl, Nat.le_add_right _ _, hbound, ?_⟩
        · show mapOk Value.vMap
            (deserialize_from_indexmap (decode kd) (decode vd) Value.beq c) = _
          unfold deserialize_from_indexmap
          rw [heq]
          show mapOk Value.vMap
              (if len = 0 then (Except.ok [], ⟨c.position + 4, c.bytes⟩)
               else readPairs (decode kd) (decode vd) Value.beq len []
                 ⟨c.position + 4, c.bytes⟩) = _
          rw [if_pos hz]
          rfl
        · show some (natToLe 4 (0 : Nat) ++ []) =
            some (slicePB c.bytes c.position (c.position + 4))
          rw [List.append_nil, show (0 : Nat) =
              leToNat ((c.bytes.drop c.position).take 4) from h0.symm,
            (natToLe4_slice c.bytes hb c.position hbound).1, slicePB_read]
      case isFalse hz =>
        split at h
        case h_2 => simp at h
        case h_1 es c2a heq2 =>
          simp only [Option.some.injEq, Prod.mk.injEq] at h
          obtain ⟨hv, hc⟩ := h
          subst hv hc
          obtain ⟨hrp, hbytes2, hple2, hplen2, new, hes, hlennew, hencnew⟩ :=
            canonPairs_sound (canon kd) (canon vd) (decode kd) (decode vd)
              (encode kd) (encode vd) ihK ihV len []
              ⟨c.position + 4, c.bytes⟩ es c2a hb hbound heq2
          have hb2 : c2a.bytes = c.bytes := hbytes2
          have hp2 : c.position + 4 ≤ c2a.position := hple2
          have hp3 : c2a.position ≤ c.bytes.length := hplen2
          have hesnew : es = new := by simpa using hes
          refine ⟨?_, hb2, by omega, hp3, ?_⟩
          · show mapOk Value.vMap
              (deserialize_from_indexmap (decode kd) (decode vd) Value.beq c) = _
            unfold deserialize_from_indexmap
            rw [heq]
            show mapOk Value.vMap
                (if len = 0 then (Except.ok [], ⟨c.position + 4, c.bytes⟩)
                 else readPairs (decode kd) (decode vd) Value.beq len []
                   ⟨c.position + 4, c.bytes⟩) = _
            rw [if_neg hz, hrp]
            rfl
          · show (match encodePairsWith (encode kd) (encode vd) es with
              | some body => some (natToLe 4 es.length ++ body)
              | none => none) =
              some (slicePB c.bytes c.position c2a.position)
            have hences : encodePairsWith (encode kd) (encode vd) es =
                some (slicePB c.bytes (c.position + 4) c2a.position) := by
              rw [hesnew]
              exact hencnew
            have heslen : es.length = len := by rw [hesnew, hlennew]
            rw [hences, heslen, hlen,
              (natToLe4_slice c.bytes hb c.position hbound).1, ← slicePB_read]
            show some (slicePB c.bytes c.position (c.position + 4) ++
                slicePB c.bytes (c.position + 4) c2a.position) =
              some (slicePB c.bytes c.position c2a.position)
            rw [← slicePB_split c.bytes c.position (c.position + 4) c2a.position
              (by omega) hp2]

/-- C1 counterexample: the 4-byte buffer `FF FF FF FF` decodes as a
boolean to `true` (any non-zero word is `true`), but the encoder — per
the spec's own §4.2, booleans are written as `0` or `1` — produces
`01 00 00 00`, which differs from the original buffer, so
`encode(decode(b)) = b` fails on a buffer that decodes successfully. -/
theorem claim_C1_counterexample :
    decode .boolD (SaveCursor.new [0xFF, 0xFF, 0xFF, 0xFF]) =
      (.ok (.vBool true), ⟨4, [0xFF, 0xFF, 0xFF, 0xFF]⟩) ∧
    encode .boolD (.vBool true) = some [1, 0, 0, 0] ∧
    ([1, 0, 0, 0] : List Nat) ≠ [0xFF, 0xFF, 0xFF, 0xFF] :=
  ⟨by rfl, by rfl, by decide⟩

/-- C1 amended: `encode(decode(b)) = b` holds for every buffer of bytes
that is canonical for its schema — every boolean word is `0` or `1`,
every map's keys are duplicate-free, and the schema is string-free (the
string encoder is not part of the examined core and its branch policy
is the spec's open question §9) — as certified by the `canon` checker:
wherever `canon` accepts, `decode` returns the same value over the same
cursor motion and `encode` reproduces exactly the consumed bytes; over
a whole buffer, exactly the original buffer. -/
theorem claim_C1_roundtrip_canonical :
    (∀ (d : Desc) (c : SaveCursor) (v : Value) (c2 : SaveCursor),
      (∀ b ∈ c.bytes, b < 256) → c.position ≤ c.bytes.length →
      canon d c = some (v, c2) →
      decode d c = (.ok v, c2) ∧
      encode d v = some (slicePB c.bytes c.position c2.position)) ∧
    (∀ (d : Desc) (bytes : List Nat) (v : Value) (c2 : SaveCursor),
      (∀ b ∈ bytes, b < 256) →
      canon d (SaveCursor.new bytes) = some (v, c2) →
      c2.position = bytes.length →
      decode d (SaveCursor.new bytes) = (.ok v, c2) ∧
      encode d v = some bytes) := by
  constructor
  · intro d c v c2 hb hp h
    obtain ⟨h1, _, _, _, h5⟩ := canon_sound d c v c2 hb hp h
    exact ⟨h1, h5⟩
  · intro d bytes v c2 hb h hpos
    obtain ⟨h1, _, _, _, h5⟩ :=
      canon_sound d (SaveCursor.new bytes) v c2 hb (Nat.zero_le _) h
    refine ⟨h1, ?_⟩
    rw [h5]
    congr 1
    show slicePB bytes 0 c2.position = bytes
    rw [hpos]
    unfold slicePB
    simp

/-- C1 witness: a canonical whole buffer — a map of two distinct
single-byte keys — decodes and re-encodes to the very same bytes. -/
theorem claim_C1_roundtrip_canonical_witness :
    ((∀ b ∈ ([2, 0, 0, 0, 1, 10, 2, 20] : List Nat), b < 256) ∧
     canon (.mapD .u8D .u8D) (SaveCursor.new [2, 0, 0, 0, 1, 10, 2, 20]) =
       some (.vMap [(.vU8 1, .vU8 10), (.vU8 2, .vU8 20)],
         ⟨8, [2, 0, 0, 0, 1, 10, 2, 20]⟩)) ∧
    (decode (.mapD .u8D .u8D) (SaveCursor.new [2, 0, 0, 0, 1, 10, 2, 20]) =
       (.ok (.vMap [(.vU8 1, .vU8 10), (.vU8 2, .vU8 20)]),
        ⟨8, [2, 0, 0, 0, 1, 10, 2, 20]⟩) ∧
     encode (.mapD .u8D .u8D) (.vMap [(.vU8 1, .vU8 10), (.vU8 2, .vU8 20)]) =
       some [2, 0, 0, 0, 1, 10, 2, 20]) :=
  ⟨⟨by decide, by rfl⟩,
   claim_C1_roundtrip_canonical.2 (.mapD .u8D .u8D) [2, 0, 0, 0, 1, 10, 2, 20]
     (.vMap [(.vU8 1, .vU8 10), (.vU8 2, .vU8 20)])
     ⟨8, [2, 0, 0, 0, 1, 10, 2, 20]⟩ (by decide) (by rfl) (by rfl)⟩

end TrilogySave